import Mathlib

/-!
# Base64 codec of `src/Base64/base64_encrypt.cpp` and XOR cipher of `src/XOR`

Shallow embedding of `encodeBase64`, `decodeBase64` and `main` of the Base64 tool,
and of `xor_encrypt` of the XOR tool.

* `std::vector<uint8_t>` is a `List Nat` whose elements are below `256`
  (`IsBytes`); `std::string` is a `List Char`.
* `uint32_t triple` is a `Nat`; every operation that can leave the 32-bit range
  is followed by `% 2 ^ 32`.
* `throw std::runtime_error(...)` is `Except.error`.
* The `while` loop of the encoder runs on explicit fuel; `encodeBase64` supplies
  `data.length`, and `encodeLoop_fuel` shows that this is enough.
* In the XOR tool a `std::string` holds the raw bytes of a binary file: it is a
  `List Nat` of byte values, and `i % key.size()` with an empty key (undefined
  behaviour in C++) is `none`.
* The file system seen by `main` is a parameter (`Env`); console output is not
  modelled, only the exit status.
-/

set_option autoImplicit false

deriving instance DecidableEq for Except

namespace XOR

/-! ## The embedding of `src/XOR/xor_encrypt .cpp` -/

/-- The loop `for (size_t i = 0; i < data.size(); ++i)` of `xor_encrypt` (lines 20-23):
the remaining characters of `data`, the index `i` and `result`. The key index
`i % key.size()` is undefined for an empty key: the result is `none`. -/
def xorLoop (key : List Nat) : List Nat → Nat → List Nat → Option (List Nat)
  | [], _, result => some result
  | c :: rest, i, result =>
    if h : 0 < key.length then
      xorLoop key rest (i + 1)
        (result ++ [(c ^^^ key.get ⟨i % key.length, Nat.mod_lt i h⟩) % 256])
    else none

/-- Function `xor_encrypt` (lines 17-26). -/
def xor_encrypt (data key : List Nat) : Option (List Nat) :=
  xorLoop key data 0 []

/-- The constant `KEY` (line 15), `"mysupersecretkey"`, as byte values. -/
def KEY : List Nat := "mysupersecretkey".toList.map Char.toNat

/-- Well-formedness of a `std::string` of raw bytes. -/
def IsBytes (s : List Nat) : Prop := ∀ x ∈ s, x < 256

instance (s : List Nat) : Decidable (IsBytes s) := by
  unfold IsBytes; infer_instance

end XOR

namespace Base64

/-! ## The embedding of the source -/

/-- The alphabet table `BASE64_CHARS` (line 25). -/
def BASE64_CHARS : List Char :=
  "ABCDEFGHIJKLMNOPQRSTUVWXYZabcdefghijklmnopqrstuvwxyz0123456789+/".toList

/-- Well-formedness of a `std::vector<uint8_t>`: every element is a byte. -/
def IsBytes (data : List Nat) : Prop := ∀ x ∈ data, x < 256

instance (data : List Nat) : Decidable (IsBytes data) := by
  unfold IsBytes; infer_instance

/-- State of the byte-reading loop of the encoder: `triple`, the read index `i`
and `padding`. -/
structure PackState where
  triple : Nat
  i : Nat
  padding : Nat
deriving DecidableEq, Repr

/-- One iteration of `for (int j = 0; j < 3; ++j)` (lines 38-49). -/
def packStep (data : List Nat) (st : PackState) : PackState :=
  let triple := (st.triple <<< 8) % 2 ^ 32
  if h : st.i < data.length then
    { triple := (triple ||| data[st.i]) % 2 ^ 32, i := st.i + 1, padding := st.padding }
  else
    { triple := triple, i := st.i, padding := st.padding + 1 }

/-- The three iterations of the byte-reading loop, started with `triple = 0`
and `padding = 0` at read index `i` (lines 34-49). -/
def readTriple (data : List Nat) (i : Nat) : PackState :=
  packStep data (packStep data (packStep data { triple := 0, i := i, padding := 0 }))

/-- The 6-bit slice `(triple >> (18 - 6 * j)) & 0x3F` (line 56). -/
def sextet (triple j : Nat) : Nat := (triple >>> (18 - 6 * j)) &&& 0x3F

/-- One iteration of `for (int j = 0; j < 4; ++j)` (lines 52-62): the character
appended to `encoded`. -/
def emitChar (triple padding j : Nat) : Char :=
  if j < 4 - padding then
    BASE64_CHARS.get ⟨sextet triple j, Nat.and_lt_two_pow _ (show 0x3F < 2 ^ 6 by decide)⟩
  else '='

/-- The four iterations of the character-emitting loop (lines 52-62). -/
def emitGroup (triple padding : Nat) (encoded : List Char) : List Char :=
  encoded ++ [emitChar triple padding 0, emitChar triple padding 1,
    emitChar triple padding 2, emitChar triple padding 3]

/-- The loop `while (i < data.size())` (lines 32-63) on explicit fuel. -/
def encodeLoop (data : List Nat) : Nat → Nat → List Char → List Char
  | 0, _, encoded => encoded
  | fuel + 1, i, encoded =>
    if i < data.length then
      let st := readTriple data i
      encodeLoop data fuel st.i (emitGroup st.triple st.padding encoded)
    else encoded

/-- Function `encodeBase64` (lines 28-65). Every iteration of the loop reads at
least one byte, so `data.length` iterations are enough. -/
def encodeBase64 (data : List Nat) : List Char :=
  encodeLoop data data.length 0 []

/-- The exception thrown by `decodeBase64` (line 82):
`std::runtime_error("Invalid Base64 character encountered.")`. -/
inductive DecodeError where
  | invalidCharacter
deriving DecidableEq, Repr

/-- The call `BASE64_CHARS.find(c)` (line 79): the index of the first occurrence of
`c`, `none` standing for `std::string::npos`. -/
def find (c : Char) : Option Nat :=
  let index := BASE64_CHARS.indexOf c
  if index < BASE64_CHARS.length then some index else none

/-- The local variables of `decodeBase64`. -/
structure DecodeState where
  decoded : List Nat
  triple : Nat
  count : Nat
deriving DecidableEq, Repr

/-- The loop `for (char c : base64Str)` (lines 74-96). -/
def decodeLoop : List Char → DecodeState → Except DecodeError DecodeState
  | [], st => .ok st
  | c :: rest, st =>
    if c = '=' then .ok st
    else
      match find c with
      | none => .error .invalidCharacter
      | some index =>
        let triple := (((st.triple <<< 6) % 2 ^ 32) ||| index) % 2 ^ 32
        let count := st.count + 1
        if count = 4 then
          decodeLoop rest
            { decoded := st.decoded ++
                [((triple >>> 16) &&& 0xFF) % 256, ((triple >>> 8) &&& 0xFF) % 256,
                  (triple &&& 0xFF) % 256],
              triple := 0, count := 0 }
        else
          decodeLoop rest { decoded := st.decoded, triple := triple, count := count }

/-- The tail handling "Handle remaining bytes" (lines 99-106). -/
def flushTail (st : DecodeState) : List Nat :=
  if st.count > 0 then
    let triple := (st.triple <<< ((4 - st.count) * 6)) % 2 ^ 32
    let decoded :=
      if st.count ≥ 2 then st.decoded ++ [((triple >>> 16) &&& 0xFF) % 256] else st.decoded
    if st.count = 3 then decoded ++ [((triple >>> 8) &&& 0xFF) % 256] else decoded
  else st.decoded

/-- Function `decodeBase64` (lines 68-109). -/
def decodeBase64 (base64Str : List Char) : Except DecodeError (List Nat) :=
  match decodeLoop base64Str { decoded := [], triple := 0, count := 0 } with
  | .error e => .error e
  | .ok st => .ok (flushTail st)

/-- The file system as seen by `main`: the helpers `readBinaryFile` (lines 112-120),
`readBase64String` (lines 134-142) and `writeBinaryFile` (lines 123-131), where `none` /
`false` stand for the `std::runtime_error` they throw, and the test
`std::ifstream(input).is_open()` of line 170. -/
structure Env where
  readBinaryFile : List Char → Option (List Nat)
  isOpen : List Char → Bool
  readBase64String : List Char → Option (List Char)
  writeBinaryFile : List Char → List Nat → Bool

/-- Function `main` (lines 144-198): the exit status for the argument vector `argv`
(`argc` is its length, `argv[0]` the program name). Every exception is caught at
line 191 and gives status 1. -/
def main (env : Env) (argv : List (List Char)) : Nat :=
  if argv.length < 3 then 1
  else
    let operation := argv.getD 1 []
    let input := argv.getD 2 []
    if operation = "encode".toList then
      match env.readBinaryFile input with
      | none => 1
      | some binaryData =>
        let _encoded := encodeBase64 binaryData
        0
    else if operation = "decode".toList then
      let base64Str :=
        if env.isOpen input then env.readBase64String input else some input
      match base64Str with
      | none => 1
      | some text =>
        match decodeBase64 text with
        | .error _ => 1
        | .ok decodedData =>
          if env.writeBinaryFile "output.bin".toList decodedData then 0 else 1
    else 1

/-! ## Derived notions used in the statements and proofs -/

/-- Appending a byte to the accumulator: `triple <<= 8; triple |= x`. -/
def push8 (t x : Nat) : Nat := ((t <<< 8) % 2 ^ 32 ||| x) % 2 ^ 32

/-- Shifting the accumulator without reading a byte: `triple <<= 8`. -/
def shift8 (t : Nat) : Nat := (t <<< 8) % 2 ^ 32

/-- Appending a symbol value to the accumulator: `triple = (triple << 6) | index`. -/
def push6 (t v : Nat) : Nat := (((t <<< 6) % 2 ^ 32) ||| v) % 2 ^ 32

/-- The four characters appended for an accumulator value and a padding count. -/
def group (triple padding : Nat) : List Char :=
  [emitChar triple padding 0, emitChar triple padding 1,
    emitChar triple padding 2, emitChar triple padding 3]

/-- The output of the encoder described group by group: a derived view of
`encodeBase64`, related to it by `encodeBase64_eq_chunks`. -/
def encodeChunks : List Nat → List Char
  | a :: b :: c :: rest => group (push8 (push8 (push8 0 a) b) c) 0 ++ encodeChunks rest
  | [a, b] => group (shift8 (push8 (push8 0 a) b)) 1
  | [a] => group (shift8 (shift8 (push8 0 a))) 2
  | [] => []

/-- The alphabet symbol for the 6-bit slice `j` of `triple`. -/
def symbol (triple j : Nat) : Char :=
  BASE64_CHARS.get ⟨sextet triple j, Nat.and_lt_two_pow _ (show 0x3F < 2 ^ 6 by decide)⟩

/-- The number of `=` appended for an input of `n` bytes. -/
def padCount (n : Nat) : Nat :=
  if n % 3 = 0 then 0 else if n % 3 = 1 then 2 else 1

/-- The three bytes pushed when four symbols have been accumulated (lines 90-92). -/
def flushBytes (triple : Nat) : List Nat :=
  [((triple >>> 16) &&& 0xFF) % 256, ((triple >>> 8) &&& 0xFF) % 256, (triple &&& 0xFF) % 256]

/-- The state after a valid symbol of value `v` (lines 85-95). -/
def stepValue (st : DecodeState) (v : Nat) : DecodeState :=
  if st.count + 1 = 4 then
    { decoded := st.decoded ++ flushBytes (push6 st.triple v), triple := 0, count := 0 }
  else
    { decoded := st.decoded, triple := push6 st.triple v, count := st.count + 1 }

/-- The characters the decoder scans: those before the first `=`. -/
def symbolsBeforePad (text : List Char) : List Char :=
  text.takeWhile (fun c => c != '=')

/-- The 6-bit value of an alphabet symbol: its index in `BASE64_CHARS`. -/
def symbolValue (c : Char) : Nat := BASE64_CHARS.indexOf c

/-- Invariant of the decoder loop: fewer than four pending symbols, and an empty
accumulator whenever none is pending. -/
def DecodeInv (st : DecodeState) : Prop :=
  st.count < 4 ∧ (st.count = 0 → st.triple = 0)

/-- The leftover symbols: those after the last complete group of four among the
symbols before the first `=`. -/
def leftover (text : List Char) : List Char :=
  (symbolsBeforePad text).drop (4 * ((symbolsBeforePad text).length / 4))

/-- The values of the leftover symbols, joined six bits at a time and left-shifted to
fill a 24-bit frame, in unbounded arithmetic. -/
def tailFrame (l : List Char) : Nat :=
  (l.foldl (fun acc c => (acc <<< 6) ||| symbolValue c) 0) <<< ((4 - l.length) * 6)

/-- The bytes taken from the frame of the leftover symbols: its top 8 bits for two
symbols, its top 16 bits for three, nothing otherwise. -/
def tailBytes (l : List Char) : List Nat :=
  if l.length = 2 then [tailFrame l >>> 16]
  else if l.length = 3 then [tailFrame l >>> 16, (tailFrame l >>> 8) &&& 0xFF]
  else []

/-- The 24-bit word `v0<<18 | v1<<12 | v2<<6 | v3` of four symbols, in unbounded
arithmetic. -/
def flushWord (c0 c1 c2 c3 : Char) : Nat :=
  (symbolValue c0 <<< 18) ||| (symbolValue c1 <<< 12) ||| (symbolValue c2 <<< 6) |||
    symbolValue c3

/-- Prepending already decoded bytes to the output held in a decoder state. -/
def prependDecoded (d : List Nat) (st : DecodeState) : DecodeState :=
  { decoded := d ++ st.decoded, triple := st.triple, count := st.count }

/-- The 24-bit value packing the bytes `b[3g]`, `b[3g+1]`, `b[3g+2]` of group `g`
most-significant first, bytes past the end of `b` taken as 0, in unbounded arithmetic. -/
def groupWord (b : List Nat) (g : Nat) : Nat :=
  (b.getD (3 * g) 0 <<< 16) ||| (b.getD (3 * g + 1) 0 <<< 8) ||| b.getD (3 * g + 2) 0

/-- The text handed to `decodeBase64` by `main` (lines 170-177): the contents of the file
named `input` when such a file can be opened, `input` itself otherwise; `none` when
reading the file throws. -/
def inputText (env : Env) (input : List Char) : Option (List Char) :=
  if env.isOpen input then env.readBase64String input else some input

/-- A file system with a one-byte file under every name that `readBinaryFile` is asked
for, no file that `is_open` finds, and a writable output file. -/
def sampleEnv : Env where
  readBinaryFile := fun _ => some [0x4D]
  isOpen := fun _ => false
  readBase64String := fun _ => none
  writeBinaryFile := fun _ _ => true

/-- A value the accumulator `triple` can hold without wrapping: it is below `2 ^ 24`, and
reducing it modulo `2 ^ 32` (the `uint32_t` arithmetic) leaves it unchanged. -/
def FitsAccumulator (v : Nat) : Prop := v < 2 ^ 24 ∧ v % 2 ^ 32 = v

/-- Bound on the accumulator of the decoder in terms of the number of pending symbols:
six bits per symbol. -/
def DecodeBound (st : DecodeState) : Prop :=
  (st.count = 0 ∧ st.triple = 0) ∨ (st.count = 1 ∧ st.triple < 2 ^ 6) ∨
    (st.count = 2 ∧ st.triple < 2 ^ 12) ∨ (st.count = 3 ∧ st.triple < 2 ^ 18)

/-! ## Bit arithmetic -/

theorem and_0x3F (x : Nat) : x &&& 0x3F = x % 64 :=
  Nat.and_pow_two_sub_one_eq_mod x 6

theorem and_0xFF (x : Nat) : x &&& 0xFF = x % 256 :=
  Nat.and_pow_two_sub_one_eq_mod x 8

theorem push8_eq (t x : Nat) (ht : t < 2 ^ 24) (hx : x < 256) :
    push8 t x = t * 256 + x := by
  have h1 : t <<< 8 = 2 ^ 8 * t := by rw [Nat.shiftLeft_eq, Nat.mul_comm]
  have h2 : 2 ^ 8 * t ||| x = 2 ^ 8 * t + x :=
    (Nat.mul_add_lt_is_or (show x < 2 ^ 8 by omega) t).symm
  have h3 : 2 ^ 8 * t % 2 ^ 32 = 2 ^ 8 * t := Nat.mod_eq_of_lt (by omega)
  unfold push8
  rw [h1, h3, h2]
  exact (Nat.mod_eq_of_lt (by omega)).trans (by omega)

theorem shift8_eq (t : Nat) (ht : t < 2 ^ 24) : shift8 t = t * 256 := by
  unfold shift8
  rw [Nat.shiftLeft_eq, Nat.mod_eq_of_lt (by omega)]

theorem push6_eq (t v : Nat) (ht : t < 2 ^ 26) (hv : v < 64) :
    push6 t v = t * 64 + v := by
  have h1 : t <<< 6 = 2 ^ 6 * t := by rw [Nat.shiftLeft_eq, Nat.mul_comm]
  have h2 : 2 ^ 6 * t ||| v = 2 ^ 6 * t + v :=
    (Nat.mul_add_lt_is_or (show v < 2 ^ 6 by omega) t).symm
  have h3 : 2 ^ 6 * t % 2 ^ 32 = 2 ^ 6 * t := Nat.mod_eq_of_lt (by omega)
  unfold push6
  rw [h1, h3, h2]
  exact (Nat.mod_eq_of_lt (by omega)).trans (by omega)

theorem sextet_eq (t j : Nat) : sextet t j = t / 2 ^ (18 - 6 * j) % 64 := by
  unfold sextet
  rw [and_0x3F, Nat.shiftRight_eq_div_pow]

/-! ## The encoder, group by group -/

theorem packStep_lt (data : List Nat) (t i p : Nat) (h : i < data.length) :
    packStep data ⟨t, i, p⟩ = ⟨push8 t data[i], i + 1, p⟩ := by
  simp [packStep, h, push8]

theorem packStep_ge (data : List Nat) (t i p : Nat) (h : data.length ≤ i) :
    packStep data ⟨t, i, p⟩ = ⟨shift8 t, i, p + 1⟩ := by
  have h2 : ¬ i < data.length := by omega
  simp [packStep, h2, shift8]

theorem encodeLoop_fuel (data : List Nat) :
    ∀ (fuel i : Nat) (encoded : List Char), data.length - i ≤ fuel →
      encodeLoop data fuel i encoded = encoded ++ encodeChunks (data.drop i) := by
  intro fuel
  induction fuel with
  | zero =>
    intro i encoded h
    have h2 : data.drop i = [] := List.drop_of_length_le (by omega)
    simp [encodeLoop, h2, encodeChunks]
  | succ n ih =>
    intro i encoded h
    unfold encodeLoop
    by_cases h0 : i < data.length
    · rw [if_pos h0, List.drop_eq_getElem_cons h0]
      by_cases h1 : i + 1 < data.length
      · rw [List.drop_eq_getElem_cons h1]
        by_cases h2 : i + 2 < data.length
        · rw [List.drop_eq_getElem_cons h2]
          simp only [readTriple, packStep_lt data _ _ _ h0, packStep_lt data _ _ _ h1,
            packStep_lt data _ _ _ h2]
          rw [ih _ _ (by omega)]
          simp [encodeChunks, emitGroup, group]
        · have h3 : data.drop (i + 1 + 1) = [] := List.drop_of_length_le (by omega)
          simp only [readTriple, packStep_lt data _ _ _ h0, packStep_lt data _ _ _ h1,
            packStep_ge data _ _ _ (show data.length ≤ i + 1 + 1 by omega)]
          rw [ih _ _ (by omega), h3]
          simp [encodeChunks, emitGroup, group]
      · have h3 : data.drop (i + 1) = [] := List.drop_of_length_le (by omega)
        simp only [readTriple, packStep_lt data _ _ _ h0,
          packStep_ge data _ _ _ (show data.length ≤ i + 1 by omega)]
        rw [ih _ _ (by omega), h3]
        simp [encodeChunks, emitGroup, group]
    · have h2 : data.drop i = [] := List.drop_of_length_le (by omega)
      simp [h0, h2, encodeChunks]

theorem encodeBase64_eq_chunks (data : List Nat) :
    encodeBase64 data = encodeChunks data := by
  unfold encodeBase64
  rw [encodeLoop_fuel data data.length 0 [] (by omega)]
  simp

/-! ## The alphabet table -/

theorem BASE64_CHARS_length : BASE64_CHARS.length = 64 := by decide

theorem BASE64_CHARS_nodup : BASE64_CHARS.Nodup := by decide

theorem pad_not_mem : '=' ∉ BASE64_CHARS := by decide

theorem find_get (i : Nat) (h : i < BASE64_CHARS.length) :
    find (BASE64_CHARS.get ⟨i, h⟩) = some i := by
  have h1 : BASE64_CHARS.indexOf (BASE64_CHARS.get ⟨i, h⟩) = i :=
    List.indexOf_getElem BASE64_CHARS_nodup i h
  simp only [find, h1, h, if_true]

theorem find_eq_none (c : Char) (h : c ∉ BASE64_CHARS) : find c = none := by
  have h1 : BASE64_CHARS.indexOf c = BASE64_CHARS.length := List.indexOf_eq_length.mpr h
  simp [find, h1]

theorem find_isSome (c : Char) (h : c ∈ BASE64_CHARS) :
    ∃ v, find c = some v ∧ v < 64 := by
  have h1 : BASE64_CHARS.indexOf c < BASE64_CHARS.length := List.indexOf_lt_length.mpr h
  exact ⟨BASE64_CHARS.indexOf c, by simp [find, h1], by rw [← BASE64_CHARS_length]; exact h1⟩

theorem find_eq_none_iff (c : Char) : find c = none ↔ c ∉ BASE64_CHARS := by
  constructor
  · intro h hc
    obtain ⟨v, hv, _⟩ := find_isSome c hc
    rw [h] at hv
    cases hv
  · exact find_eq_none c

theorem symbol_mem (t j : Nat) : symbol t j ∈ BASE64_CHARS := List.get_mem _ _ _

theorem symbol_ne_pad (t j : Nat) : symbol t j ≠ '=' := by
  intro h
  exact pad_not_mem (h ▸ symbol_mem t j)

theorem find_symbol (t j : Nat) : find (symbol t j) = some (sextet t j) :=
  find_get _ _

theorem group_zero (t : Nat) :
    group t 0 = [symbol t 0, symbol t 1, symbol t 2, symbol t 3] := by
  simp [group, emitChar, symbol]

theorem group_one (t : Nat) : group t 1 = [symbol t 0, symbol t 1, symbol t 2, '='] := by
  simp [group, emitChar, symbol]

theorem group_two (t : Nat) : group t 2 = [symbol t 0, symbol t 1, '=', '='] := by
  simp [group, emitChar, symbol]

/-! ## Shape of the encoder output -/

theorem encodeChunks_length (data : List Nat) :
    (encodeChunks data).length = 4 * ((data.length + 2) / 3) := by
  induction data using encodeChunks.induct with
  | case1 a b c rest ih =>
    simp only [encodeChunks, List.length_append, ih, group, List.length_cons, List.length_nil]
    omega
  | case2 a b => simp [encodeChunks, group]
  | case3 a => simp [encodeChunks, group]
  | case4 => simp [encodeChunks]

theorem encodeChunks_shape (data : List Nat) :
    ∃ body : List Char, encodeChunks data = body ++ List.replicate (padCount data.length) '=' ∧
      ∀ c ∈ body, c ∈ BASE64_CHARS := by
  induction data using encodeChunks.induct with
  | case1 a b c rest ih =>
    obtain ⟨body, hb, hmem⟩ := ih
    refine ⟨group (push8 (push8 (push8 0 a) b) c) 0 ++ body, ?_, ?_⟩
    · have hp : padCount (a :: b :: c :: rest).length = padCount rest.length := by
        simp only [padCount, List.length_cons]
        have : (rest.length + 1 + 1 + 1) % 3 = rest.length % 3 := by omega
        simp only [this]
      rw [hp, encodeChunks, hb, List.append_assoc]
    · intro x hx
      rw [List.mem_append, group_zero] at hx
      rcases hx with hx | hx
      · simp only [List.mem_cons, List.mem_singleton, List.not_mem_nil, or_false] at hx
        rcases hx with h | h | h | h <;> rw [h] <;> exact symbol_mem _ _
      · exact hmem x hx
  | case2 a b =>
    refine ⟨[symbol (shift8 (push8 (push8 0 a) b)) 0, symbol (shift8 (push8 (push8 0 a) b)) 1,
      symbol (shift8 (push8 (push8 0 a) b)) 2], ?_, ?_⟩
    · rw [encodeChunks, group_one]; rfl
    · intro x hx
      simp only [List.mem_cons, List.mem_singleton, List.not_mem_nil, or_false] at hx
      rcases hx with h | h | h <;> rw [h] <;> exact symbol_mem _ _
  | case3 a =>
    refine ⟨[symbol (shift8 (shift8 (push8 0 a))) 0, symbol (shift8 (shift8 (push8 0 a))) 1],
      ?_, ?_⟩
    · rw [encodeChunks, group_two]; rfl
    · intro x hx
      simp only [List.mem_cons, List.mem_singleton, List.not_mem_nil, or_false] at hx
      rcases hx with h | h <;> rw [h] <;> exact symbol_mem _ _
  | case4 => exact ⟨[], by simp [encodeChunks, padCount], by simp⟩

theorem padCount_le (n : Nat) : padCount n ≤ 2 := by
  unfold padCount
  split_ifs <;> omega

theorem ceil_div_three (n : ℕ) : ⌈(n : ℚ) / 3⌉₊ = (n + 2) / 3 := by
  have hk1 : n ≤ 3 * ((n + 2) / 3) := by omega
  have hk2 : 3 * ((n + 2) / 3) < n + 3 := by omega
  generalize (n + 2) / 3 = k at hk1 hk2
  apply le_antisymm
  · rw [Nat.ceil_le, div_le_iff₀ (by norm_num)]
    exact_mod_cast (by omega : n ≤ k * 3)
  · by_contra hlt
    have h1 : ⌈(n : ℚ) / 3⌉₊ ≤ k - 1 := by omega
    rw [Nat.ceil_le, div_le_iff₀ (by norm_num)] at h1
    have h2 : n ≤ (k - 1) * 3 := by exact_mod_cast h1
    omega

/-! ## Single steps of the decoder -/

theorem decodeLoop_nil (st : DecodeState) : decodeLoop [] st = .ok st := rfl

theorem decodeLoop_pad (rest : List Char) (st : DecodeState) :
    decodeLoop ('=' :: rest) st = .ok st := by
  simp [decodeLoop]

theorem decodeLoop_invalid (c : Char) (rest : List Char) (st : DecodeState)
    (hc : c ≠ '=') (hf : find c = none) :
    decodeLoop (c :: rest) st = .error .invalidCharacter := by
  simp [decodeLoop, hc, hf]

theorem decodeLoop_valid (c : Char) (rest : List Char) (st : DecodeState) (v : Nat)
    (hc : c ≠ '=') (hf : find c = some v) :
    decodeLoop (c :: rest) st = decodeLoop rest (stepValue st v) := by
  rw [decodeLoop, if_neg hc]
  simp only [hf, stepValue, push6, flushBytes]
  split_ifs <;> rfl

theorem decodeLoop_symbol (t j : Nat) (rest : List Char) (st : DecodeState) :
    decodeLoop (symbol t j :: rest) st = decodeLoop rest (stepValue st (sextet t j)) :=
  decodeLoop_valid _ _ _ _ (symbol_ne_pad t j) (find_symbol t j)

theorem flushBytes_eq (t : Nat) : flushBytes t = [t / 65536 % 256, t / 256 % 256, t % 256] := by
  simp [flushBytes, and_0xFF, Nat.shiftRight_eq_div_pow]

/-! ## Round trip -/

theorem push6_two (v0 v1 : Nat) (h0 : v0 < 64) (h1 : v1 < 64) :
    push6 (push6 0 v0) v1 = v0 * 64 + v1 := by
  have e0 : push6 0 v0 = v0 := by rw [push6_eq 0 v0 (by omega) h0]; omega
  rw [e0, push6_eq v0 v1 (by omega) h1]

theorem push6_three (v0 v1 v2 : Nat) (h0 : v0 < 64) (h1 : v1 < 64) (h2 : v2 < 64) :
    push6 (push6 (push6 0 v0) v1) v2 = (v0 * 64 + v1) * 64 + v2 := by
  rw [push6_two v0 v1 h0 h1, push6_eq _ v2 (by omega) h2]

theorem push6_four (v0 v1 v2 v3 : Nat) (h0 : v0 < 64) (h1 : v1 < 64) (h2 : v2 < 64)
    (h3 : v3 < 64) :
    push6 (push6 (push6 (push6 0 v0) v1) v2) v3 = ((v0 * 64 + v1) * 64 + v2) * 64 + v3 := by
  rw [push6_three v0 v1 v2 h0 h1 h2, push6_eq _ v3 (by omega) h3]

theorem sextet_zero (t : Nat) : sextet t 0 = t / 262144 % 64 := by
  rw [sextet_eq]; norm_num

theorem sextet_one (t : Nat) : sextet t 1 = t / 4096 % 64 := by
  rw [sextet_eq]; norm_num

theorem sextet_two (t : Nat) : sextet t 2 = t / 64 % 64 := by
  rw [sextet_eq]; norm_num

theorem sextet_three (t : Nat) : sextet t 3 = t % 64 := by
  rw [sextet_eq]; simp

theorem sextet_lt_64 (t j : Nat) : sextet t j < 64 := by
  rw [sextet_eq]; omega

theorem sextets_join (t : Nat) (ht : t < 2 ^ 24) :
    push6 (push6 (push6 (push6 0 (sextet t 0)) (sextet t 1)) (sextet t 2)) (sextet t 3) = t := by
  rw [push6_four _ _ _ _ (sextet_lt_64 t 0) (sextet_lt_64 t 1) (sextet_lt_64 t 2)
    (sextet_lt_64 t 3), sextet_zero, sextet_one, sextet_two, sextet_three]
  omega

theorem sextets_join3 (t : Nat) (ht : t < 2 ^ 24) :
    push6 (push6 (push6 0 (sextet t 0)) (sextet t 1)) (sextet t 2) = t / 64 := by
  rw [push6_three _ _ _ (sextet_lt_64 t 0) (sextet_lt_64 t 1) (sextet_lt_64 t 2),
    sextet_zero, sextet_one, sextet_two]
  omega

theorem sextets_join2 (t : Nat) (ht : t < 2 ^ 24) :
    push6 (push6 0 (sextet t 0)) (sextet t 1) = t / 4096 := by
  rw [push6_two _ _ (sextet_lt_64 t 0) (sextet_lt_64 t 1), sextet_zero, sextet_one]
  omega

theorem decodeLoop_group (t : Nat) (ht : t < 2 ^ 24) (rest : List Char) (d : List Nat) :
    decodeLoop (group t 0 ++ rest) ⟨d, 0, 0⟩ =
      decodeLoop rest ⟨d ++ [t / 65536 % 256, t / 256 % 256, t % 256], 0, 0⟩ := by
  rw [group_zero]
  simp only [List.cons_append, List.nil_append]
  rw [decodeLoop_symbol, decodeLoop_symbol, decodeLoop_symbol, decodeLoop_symbol]
  simp only [stepValue, Nat.zero_add, Nat.reduceAdd, Nat.reduceEqDiff, if_false, if_true,
    sextets_join t ht, flushBytes_eq]

theorem push8_one (a : Nat) (ha : a < 256) : push8 0 a = a := by
  rw [push8_eq 0 a (by omega) ha]; omega

theorem push8_two (a b : Nat) (ha : a < 256) (hb : b < 256) :
    push8 (push8 0 a) b = a * 256 + b := by
  rw [push8_one a ha, push8_eq a b (by omega) hb]

theorem pack3 (a b c : Nat) (ha : a < 256) (hb : b < 256) (hc : c < 256) :
    push8 (push8 (push8 0 a) b) c = (a * 256 + b) * 256 + c := by
  rw [push8_two a b ha hb, push8_eq _ c (by omega) hc]

theorem pack2 (a b : Nat) (ha : a < 256) (hb : b < 256) :
    shift8 (push8 (push8 0 a) b) = (a * 256 + b) * 256 := by
  rw [push8_two a b ha hb, shift8_eq _ (by omega)]

theorem pack1 (a : Nat) (ha : a < 256) :
    shift8 (shift8 (push8 0 a)) = a * 65536 := by
  rw [push8_one a ha, shift8_eq a (by omega), shift8_eq (a * 256) (by omega)]
  omega

theorem roundtrip_chunks (data : List Nat) (hb : IsBytes data) :
    ∀ d : List Nat, ∃ st, decodeLoop (encodeChunks data) ⟨d, 0, 0⟩ = .ok st ∧
      flushTail st = d ++ data := by
  induction data using encodeChunks.induct with
  | case1 a b c rest ih =>
    intro d
    have ha : a < 256 := hb a (by simp)
    have hb2 : b < 256 := hb b (by simp)
    have hc : c < 256 := hb c (by simp)
    have hrest : IsBytes rest := fun x hx => hb x (by simp [hx])
    obtain ⟨st, h1, h2⟩ := ih hrest (d ++ [a, b, c])
    refine ⟨st, ?_, ?_⟩
    · rw [encodeChunks, pack3 a b c ha hb2 hc, decodeLoop_group _ (by omega), ← h1]
      congr 3
      simp only [List.cons.injEq, and_true]
      omega
    · rw [h2]; simp
  | case2 a b =>
    intro d
    have ha : a < 256 := hb a (by simp)
    have hb2 : b < 256 := hb b (by simp)
    refine ⟨⟨d, (a * 256 + b) * 256 / 64, 3⟩, ?_, ?_⟩
    · rw [encodeChunks, pack2 a b ha hb2, group_one, decodeLoop_symbol, decodeLoop_symbol,
        decodeLoop_symbol, decodeLoop_pad]
      simp only [stepValue, Nat.zero_add, Nat.reduceAdd, Nat.reduceEqDiff, if_false,
        sextets_join3 _ (show (a * 256 + b) * 256 < 2 ^ 24 by omega)]
    · simp only [flushTail, and_0xFF, Nat.shiftRight_eq_div_pow, Nat.shiftLeft_eq]
      simp only [gt_iff_lt, Nat.lt_add_one, ge_iff_le, Nat.reduceLeDiff, if_true,
        Nat.reduceSub, Nat.reduceMul, Nat.reducePow, Nat.zero_lt_succ, List.append_assoc,
        List.singleton_append, Nat.mod_mod, Nat.ofNat_pos]
      congr 2
      · omega
      · congr 1; omega
  | case3 a =>
    intro d
    have ha : a < 256 := hb a (by simp)
    refine ⟨⟨d, a * 65536 / 4096, 2⟩, ?_, ?_⟩
    · rw [encodeChunks, pack1 a ha, group_two, decodeLoop_symbol, decodeLoop_symbol,
        decodeLoop_pad]
      simp only [stepValue, Nat.zero_add, Nat.reduceAdd, Nat.reduceEqDiff, if_false,
        sextets_join2 _ (show a * 65536 < 2 ^ 24 by omega)]
    · simp only [flushTail, and_0xFF, Nat.shiftRight_eq_div_pow, Nat.shiftLeft_eq]
      simp only [gt_iff_lt, Nat.ofNat_pos, ge_iff_le, le_refl, if_true, Nat.reduceSub,
        Nat.reduceMul, Nat.reducePow, Nat.reduceEqDiff, if_false, Nat.mod_mod]
      congr 2
      omega
  | case4 =>
    intro d
    exact ⟨⟨d, 0, 0⟩, by simp [encodeChunks, decodeLoop], by simp [flushTail]⟩

/-! ## The decoder on arbitrary text -/

theorem symbolsBeforePad_cons_pad (rest : List Char) : symbolsBeforePad ('=' :: rest) = [] := by
  simp [symbolsBeforePad]

theorem symbolsBeforePad_cons_ne (c : Char) (rest : List Char) (hc : c ≠ '=') :
    symbolsBeforePad (c :: rest) = c :: symbolsBeforePad rest := by
  simp [symbolsBeforePad, List.takeWhile_cons, hc]

theorem pad_not_mem_symbolsBeforePad (text : List Char) : '=' ∉ symbolsBeforePad text := by
  intro h
  have := List.mem_takeWhile_imp h
  simp at this

theorem symbolsBeforePad_of_not_mem (s : List Char) (hs : '=' ∉ s) :
    symbolsBeforePad s = s := by
  induction s with
  | nil => rfl
  | cons c rest ih =>
    have hc : c ≠ '=' := fun h => hs (by simp [h])
    rw [symbolsBeforePad_cons_ne c rest hc, ih (fun h => hs (by simp [h]))]

theorem symbolsBeforePad_append_pad (s t : List Char) (hs : '=' ∉ s) :
    symbolsBeforePad (s ++ '=' :: t) = s := by
  induction s with
  | nil => exact symbolsBeforePad_cons_pad t
  | cons c rest ih =>
    have hc : c ≠ '=' := fun h => hs (by simp [h])
    rw [List.cons_append, symbolsBeforePad_cons_ne c _ hc, ih (fun h => hs (by simp [h]))]

theorem decodeLoop_symbolsBeforePad (text : List Char) :
    ∀ st : DecodeState, decodeLoop text st = decodeLoop (symbolsBeforePad text) st := by
  induction text with
  | nil => intro st; rfl
  | cons c rest ih =>
    intro st
    by_cases hc : c = '='
    · subst hc
      rw [symbolsBeforePad_cons_pad, decodeLoop_pad, decodeLoop_nil]
    · rw [symbolsBeforePad_cons_ne c rest hc]
      cases hf : find c with
      | none => rw [decodeLoop_invalid c _ st hc hf, decodeLoop_invalid c _ st hc hf]
      | some v => rw [decodeLoop_valid c _ st v hc hf, decodeLoop_valid c _ st v hc hf, ih]

theorem decodeBase64_symbolsBeforePad (text : List Char) :
    decodeBase64 text = decodeBase64 (symbolsBeforePad text) := by
  unfold decodeBase64
  rw [decodeLoop_symbolsBeforePad]

theorem find_of_mem (c : Char) (h : c ∈ BASE64_CHARS) : find c = some (symbolValue c) := by
  have h1 : BASE64_CHARS.indexOf c < BASE64_CHARS.length := List.indexOf_lt_length.mpr h
  simp [find, symbolValue, h1]

theorem symbolValue_lt (c : Char) (h : c ∈ BASE64_CHARS) : symbolValue c < 64 := by
  have h1 : BASE64_CHARS.indexOf c < BASE64_CHARS.length := List.indexOf_lt_length.mpr h
  rw [BASE64_CHARS_length] at h1
  exact h1

theorem ne_pad_of_mem (c : Char) (h : c ∈ BASE64_CHARS) : c ≠ '=' :=
  fun hc => pad_not_mem (hc ▸ h)

theorem decodeLoop_error_iff (text : List Char) :
    ∀ st : DecodeState, decodeLoop text st = .error .invalidCharacter ↔
      ∃ c ∈ symbolsBeforePad text, c ∉ BASE64_CHARS := by
  induction text with
  | nil => intro st; simp [decodeLoop, symbolsBeforePad]
  | cons c rest ih =>
    intro st
    by_cases hc : c = '='
    · subst hc
      simp [symbolsBeforePad_cons_pad, decodeLoop_pad]
    · rw [symbolsBeforePad_cons_ne c rest hc]
      by_cases hm : c ∈ BASE64_CHARS
      · rw [decodeLoop_valid c rest st _ hc (find_of_mem c hm), ih]
        simp [hm]
      · rw [decodeLoop_invalid c rest st hc (find_eq_none c hm)]
        simp [hm]

theorem decodeBase64_error_iff (text : List Char) :
    decodeBase64 text = .error .invalidCharacter ↔
      ∃ c ∈ symbolsBeforePad text, c ∉ BASE64_CHARS := by
  rw [← decodeLoop_error_iff text { decoded := [], triple := 0, count := 0 }]
  unfold decodeBase64
  cases decodeLoop text { decoded := [], triple := 0, count := 0 } with
  | error e => cases e; simp
  | ok st => simp

/-- A valid text is decoded by folding `stepValue` over the symbol values. -/
theorem decodeLoop_valid_text (p : List Char) (hp : ∀ c ∈ p, c ∈ BASE64_CHARS) :
    ∀ st : DecodeState, decodeLoop p st = .ok ((p.map symbolValue).foldl stepValue st) := by
  induction p with
  | nil => intro st; rfl
  | cons c rest ih =>
    intro st
    have hm : c ∈ BASE64_CHARS := hp c (by simp)
    rw [decodeLoop_valid c rest st _ (ne_pad_of_mem c hm) (find_of_mem c hm),
      ih (fun x hx => hp x (by simp [hx]))]
    rfl

theorem flushBytes_length (t : Nat) : (flushBytes t).length = 3 := rfl

theorem stepValue_fold (vs : List Nat) :
    ∀ st : DecodeState, DecodeInv st →
      DecodeInv (vs.foldl stepValue st) ∧
      (vs.foldl stepValue st).count = (st.count + vs.length) % 4 ∧
      (vs.foldl stepValue st).decoded.length =
        st.decoded.length + 3 * ((st.count + vs.length) / 4) ∧
      st.decoded <+: (vs.foldl stepValue st).decoded := by
  induction vs with
  | nil =>
    intro st hst
    obtain ⟨h1, h2⟩ := hst
    refine ⟨⟨h1, h2⟩, ?_, ?_, List.prefix_refl _⟩
    · simp only [List.foldl_nil, List.length_nil]; omega
    · simp only [List.foldl_nil, List.length_nil]; omega
  | cons v rest ih =>
    intro st hst
    obtain ⟨h1, h2⟩ := hst
    rw [List.foldl_cons]
    by_cases h4 : st.count + 1 = 4
    · have hs : stepValue st v =
          { decoded := st.decoded ++ flushBytes (push6 st.triple v), triple := 0, count := 0 } := by
        simp [stepValue, h4]
      rw [hs]
      obtain ⟨i1, i2, i3, i4⟩ := ih
        { decoded := st.decoded ++ flushBytes (push6 st.triple v), triple := 0, count := 0 }
        ⟨Nat.zero_lt_succ 3, fun _ => rfl⟩
      refine ⟨i1, ?_, ?_, (List.prefix_append _ _).trans i4⟩
      · rw [i2]; simp only [List.length_cons]; omega
      · rw [i3]
        simp only [List.length_append, flushBytes_length, List.length_cons]
        omega
    · have hs : stepValue st v =
          { decoded := st.decoded, triple := push6 st.triple v, count := st.count + 1 } := by
        simp [stepValue, h4]
      rw [hs]
      obtain ⟨i1, i2, i3, i4⟩ := ih
        { decoded := st.decoded, triple := push6 st.triple v, count := st.count + 1 }
        ⟨Nat.lt_of_le_of_ne h1 h4, fun h => absurd h (Nat.succ_ne_zero _)⟩
      refine ⟨i1, ?_, ?_, i4⟩
      · rw [i2]; simp only [List.length_cons]; omega
      · rw [i3]
        simp only [List.length_cons]
        omega

/-! ## Tail handling of the decoder -/

theorem shl6_or (t v : Nat) (hv : v < 64) : (t <<< 6) ||| v = t * 64 + v := by
  have h1 : t <<< 6 = 2 ^ 6 * t := by rw [Nat.shiftLeft_eq, Nat.mul_comm]
  rw [h1, ← Nat.mul_add_lt_is_or (show v < 2 ^ 6 by omega) t]
  omega

theorem flushTail_short (l : List Char) (hl : ∀ c ∈ l, c ∈ BASE64_CHARS)
    (hlen : l.length < 4) (d : List Nat) :
    flushTail ((l.map symbolValue).foldl stepValue ⟨d, 0, 0⟩) = d ++ tailBytes l ∧
      tailFrame l < 2 ^ 24 := by
  match l, hl, hlen with
  | [], _, _ => simp [flushTail, tailBytes, tailFrame]
  | [x], hl, _ =>
    have hx := symbolValue_lt x (hl x (by simp))
    refine ⟨by simp [flushTail, tailBytes, stepValue], ?_⟩
    simp only [tailFrame, List.foldl_cons, List.foldl_nil, shl6_or _ _ hx,
      List.length_singleton]
    rw [Nat.shiftLeft_eq]
    omega
  | [x, y], hl, _ =>
    have hx := symbolValue_lt x (hl x (by simp))
    have hy := symbolValue_lt y (hl y (by simp))
    have hf : tailFrame [x, y] = (symbolValue x * 64 + symbolValue y) * 4096 := by
      simp only [tailFrame, List.foldl_cons, List.foldl_nil, shl6_or _ _ hx, shl6_or _ _ hy,
        List.length_cons, List.length_nil]
      rw [Nat.shiftLeft_eq]
      omega
    refine ⟨?_, by rw [hf]; omega⟩
    simp only [tailBytes, hf, List.length_cons, List.length_nil, List.map_cons, List.map_nil,
      List.foldl_cons, List.foldl_nil, stepValue, flushTail, Nat.zero_add, Nat.reduceAdd,
      Nat.reduceEqDiff, if_false, if_true, push6_two _ _ hx hy, and_0xFF,
      Nat.shiftRight_eq_div_pow, Nat.shiftLeft_eq, gt_iff_lt, Nat.ofNat_pos, ge_iff_le, le_refl,
      Nat.reduceSub, Nat.reduceMul, Nat.reducePow, Nat.mod_mod]
    congr 2
    omega
  | [x, y, z], hl, _ =>
    have hx := symbolValue_lt x (hl x (by simp))
    have hy := symbolValue_lt y (hl y (by simp))
    have hz := symbolValue_lt z (hl z (by simp))
    have hf : tailFrame [x, y, z] =
        ((symbolValue x * 64 + symbolValue y) * 64 + symbolValue z) * 64 := by
      simp only [tailFrame, List.foldl_cons, List.foldl_nil, shl6_or _ _ hx, shl6_or _ _ hy,
        shl6_or _ _ hz, List.length_cons, List.length_nil]
      rw [Nat.shiftLeft_eq]
      omega
    refine ⟨?_, by rw [hf]; omega⟩
    simp only [tailBytes, hf, List.length_cons, List.length_nil, List.map_cons, List.map_nil,
      List.foldl_cons, List.foldl_nil, stepValue, flushTail, Nat.zero_add, Nat.reduceAdd,
      Nat.reduceEqDiff, if_false, if_true, push6_three _ _ _ hx hy hz, and_0xFF,
      Nat.shiftRight_eq_div_pow, Nat.shiftLeft_eq, gt_iff_lt, Nat.ofNat_pos, ge_iff_le,
      Nat.reduceLeDiff, Nat.reduceSub, Nat.reduceMul, Nat.reducePow, Nat.mod_mod,
      List.append_assoc, List.singleton_append]
    congr 2
    · omega
    · congr 1; omega
  | _ :: _ :: _ :: _ :: _, _, hlen => simp at hlen; omega

theorem decodeBase64_groups_tail (g l : List Char) (hg : ∀ c ∈ g, c ∈ BASE64_CHARS)
    (hl : ∀ c ∈ l, c ∈ BASE64_CHARS) (hglen : g.length % 4 = 0) (hllen : l.length < 4) :
    ∃ dg : List Nat, dg.length = 3 * (g.length / 4) ∧
      decodeBase64 (g ++ l) = .ok (dg ++ tailBytes l) ∧ tailFrame l < 2 ^ 24 := by
  have hgl : ∀ c ∈ g ++ l, c ∈ BASE64_CHARS := by
    intro c hc
    rcases List.mem_append.mp hc with h | h
    · exact hg c h
    · exact hl c h
  obtain ⟨⟨_, i0⟩, i1, i2, _⟩ := stepValue_fold (g.map symbolValue) ⟨[], 0, 0⟩
    ⟨Nat.zero_lt_succ 3, fun _ => rfl⟩
  simp only [List.length_map, Nat.zero_add, List.length_nil] at i1 i2
  rw [hglen] at i1
  have i3 := i0 i1
  generalize hst : (g.map symbolValue).foldl stepValue ⟨[], 0, 0⟩ = st at i1 i2 i3
  obtain ⟨dg, tr, ct⟩ := st
  simp only at i1 i2 i3
  subst i1 i3
  obtain ⟨t1, t2⟩ := flushTail_short l hl hllen dg
  refine ⟨dg, i2, ?_, t2⟩
  unfold decodeBase64
  rw [decodeLoop_valid_text (g ++ l) hgl, List.map_append, List.foldl_append, hst]
  simp only [t1]

theorem decodeBase64_tail (text : List Char)
    (h : ∀ c ∈ symbolsBeforePad text, c ∈ BASE64_CHARS) :
    ∃ dg : List Nat, dg.length = 3 * ((symbolsBeforePad text).length / 4) ∧
      decodeBase64 text = .ok (dg ++ tailBytes (leftover text)) ∧
      (leftover text).length = (symbolsBeforePad text).length % 4 ∧
      tailFrame (leftover text) < 2 ^ 24 := by
  have hsplit := List.take_append_drop (4 * ((symbolsBeforePad text).length / 4))
    (symbolsBeforePad text)
  have hglen : ((symbolsBeforePad text).take
      (4 * ((symbolsBeforePad text).length / 4))).length =
      4 * ((symbolsBeforePad text).length / 4) := by
    rw [List.length_take]; omega
  have hllen : (leftover text).length = (symbolsBeforePad text).length % 4 := by
    unfold leftover
    rw [List.length_drop]; omega
  obtain ⟨dg, d1, d2, d3⟩ := decodeBase64_groups_tail
    ((symbolsBeforePad text).take (4 * ((symbolsBeforePad text).length / 4))) (leftover text)
    (fun c hc => h c (List.mem_of_mem_take hc)) (fun c hc => h c (List.mem_of_mem_drop hc))
    (by rw [hglen]; omega) (by rw [hllen]; omega)
  refine ⟨dg, ?_, ?_, hllen, d3⟩
  · rw [d1, hglen]; omega
  · rw [decodeBase64_symbolsBeforePad, ← d2]
    unfold leftover
    rw [hsplit]

/-! ## Claims -/

/-- C1. Round trip: for every byte sequence `b` (of any length, the empty one and the
lengths that are not multiples of 3 included), `decodeBase64 (encodeBase64 b)` succeeds
and returns exactly `b`. -/
theorem C1_decode_encode_roundtrip (b : List Nat) (hb : IsBytes b) :
    decodeBase64 (encodeBase64 b) = .ok b := by
  obtain ⟨st, h1, h2⟩ := roundtrip_chunks b hb []
  rw [encodeBase64_eq_chunks]
  unfold decodeBase64
  rw [h1]
  simp only [h2, List.nil_append]

/-- Witness of C1 on a 7-byte input (two full groups and a 1-byte tail). -/
theorem C1_decode_encode_roundtrip_witness :
    IsBytes [0x4D, 0x61, 0x6E, 0x00, 0xFF, 0x80, 0x7F] ∧
      decodeBase64 (encodeBase64 [0x4D, 0x61, 0x6E, 0x00, 0xFF, 0x80, 0x7F]) =
        .ok [0x4D, 0x61, 0x6E, 0x00, 0xFF, 0x80, 0x7F] :=
  ⟨by decide, C1_decode_encode_roundtrip _ (by decide)⟩

/-- C2. Invalid-symbol rejection: `decodeBase64 text` fails with the invalid-character
error if and only if some character before the first `=` of `text` (anywhere in `text`
when it has no `=`) is not an alphabet symbol; a failing call returns no bytes; and
`decodeBase64 "A!=="` fails. -/
theorem C2_invalid_symbol_rejection :
    (∀ text : List Char,
      (decodeBase64 text = .error .invalidCharacter ↔
        ∃ c ∈ text.takeWhile (fun c => c != '='), c ∉ BASE64_CHARS) ∧
      (decodeBase64 text = .error .invalidCharacter → ∀ out, decodeBase64 text ≠ .ok out)) ∧
    decodeBase64 "A!==".toList = .error .invalidCharacter := by
  refine ⟨fun text => ⟨decodeBase64_error_iff text, ?_⟩, by decide⟩
  intro h out hout
  rw [h] at hout
  cases hout

/-- C3. Length law: the length of `encodeBase64 b` is `4 * ceil (len b / 3)`, and
hence a multiple of 4. -/
theorem C3_encode_length (b : List Nat) :
    (encodeBase64 b).length = 4 * ⌈(b.length : ℚ) / 3⌉₊ ∧ (encodeBase64 b).length % 4 = 0 := by
  rw [encodeBase64_eq_chunks, encodeChunks_length, ceil_div_three]
  exact ⟨rfl, by omega⟩

theorem encodeBase64_count_pad (b : List Nat) :
    (encodeBase64 b).count '=' = padCount b.length := by
  obtain ⟨body, h1, h2⟩ := encodeChunks_shape b
  have hbody : body.count '=' = 0 :=
    List.count_eq_zero.mpr (fun h => pad_not_mem (h2 _ h))
  rw [encodeBase64_eq_chunks, h1, List.count_append, hbody, List.count_replicate_self]
  omega

/-- C4. Padding count: the number of `=` in `encodeBase64 b` is 0 when
`len b % 3 = 0`, 2 when `len b % 3 = 1`, and 1 when `len b % 3 = 2`. -/
theorem C4_padding_count (b : List Nat) :
    (encodeBase64 b).count '=' =
      if b.length % 3 = 0 then 0 else if b.length % 3 = 1 then 2 else 1 :=
  encodeBase64_count_pad b

/-- C5. Alphabet closure: every character of `encodeBase64 b` is an alphabet symbol
or `=`; a `=` stands in one of the last two positions and every character after it is
`=` as well. -/
theorem C5_alphabet_closure (b : List Nat) :
    (∀ c ∈ encodeBase64 b, c ∈ BASE64_CHARS ∨ c = '=') ∧
    (∀ k : Nat, (encodeBase64 b)[k]? = some '=' →
      (encodeBase64 b).length ≤ k + 2 ∧
      ∀ m : Nat, k ≤ m → m < (encodeBase64 b).length → (encodeBase64 b)[m]? = some '=') := by
  obtain ⟨body, h1, h2⟩ := encodeChunks_shape b
  have hk := padCount_le b.length
  rw [encodeBase64_eq_chunks, h1]
  generalize padCount b.length = n at hk
  constructor
  · intro c hc
    rcases List.mem_append.mp hc with h | h
    · exact Or.inl (h2 c h)
    · exact Or.inr (List.eq_of_mem_replicate h)
  · intro k hk1
    have hge : body.length ≤ k := by
      by_contra hlt
      have hlt2 : k < body.length := by omega
      rw [List.getElem?_append_left hlt2] at hk1
      exact pad_not_mem (h2 _ (List.getElem?_mem hk1))
    refine ⟨by simp only [List.length_append, List.length_replicate]; omega, ?_⟩
    intro m hm1 hm2
    simp only [List.length_append, List.length_replicate] at hm2
    rw [List.getElem?_append_right (by omega), List.getElem?_replicate, if_pos (by omega)]

theorem decodeBase64_stop_at_pad (s t : List Char) (hs : '=' ∉ s) :
    decodeBase64 (s ++ '=' :: t) = decodeBase64 s := by
  rw [decodeBase64_symbolsBeforePad, symbolsBeforePad_append_pad s t hs]

/-- C6. Stop at first pad: for `s` without `=` and any `t`,
`decodeBase64 (s ++ "=" ++ t)` is `decodeBase64 s` (same bytes or same failure); and
`decodeBase64 "TWFuTWE=TQ=="` equals `decodeBase64 "TWFuTWE"`, which is
`[0x4D, 0x61, 0x6E, 0x4D, 0x61]`. -/
theorem C6_stop_at_first_pad :
    (∀ s t : List Char, '=' ∉ s → decodeBase64 (s ++ "=".toList ++ t) = decodeBase64 s) ∧
    decodeBase64 "TWFuTWE=TQ==".toList = decodeBase64 "TWFuTWE".toList ∧
    decodeBase64 "TWFuTWE".toList = .ok [0x4D, 0x61, 0x6E, 0x4D, 0x61] := by
  refine ⟨fun s t hs => ?_, by decide, by decide⟩
  have h := decodeBase64_stop_at_pad s t hs
  simpa using h

/-- Witness of C6: garbage after the pad, `!` included, is never looked at. -/
theorem C6_stop_at_first_pad_witness :
    '=' ∉ "TWE".toList ∧
      decodeBase64 ("TWE".toList ++ "=".toList ++ "!?".toList) = decodeBase64 "TWE".toList :=
  ⟨by decide, C6_stop_at_first_pad.1 _ _ (by decide)⟩

/-- C7. Tail handling and decoded length: when the `n` characters before the first `=`
are all alphabet symbols, `decodeBase64` returns exactly `3 * (n / 4) + k` bytes, with
`k = 0` for `n % 4` in `{0, 1}`, `k = 1` for `n % 4 = 2` and `k = 2` for `n % 4 = 3`;
the bytes after the first `3 * (n / 4)` are the top 8 (resp. top 16) bits of the
leftover symbols' values left-shifted into a 24-bit frame. -/
theorem C7_tail_handling (text : List Char)
    (h : ∀ c ∈ text.takeWhile (fun c => c != '='), c ∈ BASE64_CHARS) :
    ∃ out : List Nat, decodeBase64 text = .ok out ∧
      out.length = 3 * ((symbolsBeforePad text).length / 4) +
        (if (symbolsBeforePad text).length % 4 = 2 then 1
         else if (symbolsBeforePad text).length % 4 = 3 then 2 else 0) ∧
      tailFrame (leftover text) < 2 ^ 24 ∧
      ((symbolsBeforePad text).length % 4 = 2 →
        out.drop (3 * ((symbolsBeforePad text).length / 4)) =
          [tailFrame (leftover text) >>> 16]) ∧
      ((symbolsBeforePad text).length % 4 = 3 →
        out.drop (3 * ((symbolsBeforePad text).length / 4)) =
          [tailFrame (leftover text) >>> 16, (tailFrame (leftover text) >>> 8) &&& 0xFF]) := by
  obtain ⟨dg, d1, d2, d3, d4⟩ := decodeBase64_tail text h
  refine ⟨dg ++ tailBytes (leftover text), d2, ?_, d4, ?_, ?_⟩
  · rw [List.length_append, d1]
    unfold tailBytes
    rw [d3]
    split_ifs <;> simp
  · intro h2
    rw [← d1, List.drop_left]
    simp [tailBytes, d3, h2]
  · intro h3
    rw [← d1, List.drop_left]
    simp [tailBytes, d3, h3]

/-- Witness of C7 on `"TWFuTWE=TQ=="`: seven symbols before the pad, five bytes out. -/
theorem C7_tail_handling_witness :
    (∀ c ∈ "TWFuTWE=TQ==".toList.takeWhile (fun c => c != '='), c ∈ BASE64_CHARS) ∧
    ∃ out : List Nat, decodeBase64 "TWFuTWE=TQ==".toList = .ok out ∧ out.length = 5 := by
  refine ⟨by decide, ?_⟩
  obtain ⟨out, h1, h2, _⟩ := C7_tail_handling "TWFuTWE=TQ==".toList (by decide)
  exact ⟨out, h1, by rw [h2]; decide⟩

/-- C8. Concrete vectors: `encodeBase64 [0x4D, 0x61, 0x6E] = "TWFu"`,
`encodeBase64 [0x4D, 0x61] = "TWE="` and `encodeBase64 [0x4D] = "TQ=="`. -/
theorem C8_concrete_vectors :
    encodeBase64 [0x4D, 0x61, 0x6E] = "TWFu".toList ∧
    encodeBase64 [0x4D, 0x61] = "TWE=".toList ∧
    encodeBase64 [0x4D] = "TQ==".toList := by
  decide

/-- C9. Empty input: `encodeBase64` of the empty byte sequence is the empty string and
`decodeBase64` of the empty string succeeds with the empty byte sequence. -/
theorem C9_empty_input :
    encodeBase64 [] = "".toList ∧ decodeBase64 "".toList = .ok [] := by
  decide

/-- C10. Alphabet table invariant: `BASE64_CHARS` has exactly 64 symbols, pairwise
distinct, none of them `=`; the reverse lookup `find` returns `i` for the symbol at
index `i`, and reports "not found" for every character outside the table. -/
theorem C10_alphabet_table :
    BASE64_CHARS.length = 64 ∧ BASE64_CHARS.Nodup ∧ '=' ∉ BASE64_CHARS ∧
    (∀ (i : Nat) (h : i < BASE64_CHARS.length), find (BASE64_CHARS.get ⟨i, h⟩) = some i) ∧
    (∀ c : Char, c ∉ BASE64_CHARS → find c = none) :=
  ⟨BASE64_CHARS_length, BASE64_CHARS_nodup, pad_not_mem, find_get, find_eq_none⟩

/-- C11. The reverse round trip is not a law: on `"TWFuTWE=TQ=="` the decoder succeeds,
and encoding its result gives `"TWFuTWE="`, not the text itself (the characters after
the first `=` are dropped). -/
theorem C11_reverse_roundtrip_fails :
    ∃ (y : List Char) (out : List Nat), decodeBase64 y = .ok out ∧ encodeBase64 out ≠ y ∧
      y = "TWFuTWE=TQ==".toList ∧ encodeBase64 out = "TWFuTWE=".toList :=
  ⟨"TWFuTWE=TQ==".toList, [0x4D, 0x61, 0x6E, 0x4D, 0x61], by decide, by decide, rfl,
    by decide⟩

theorem encodeChunks_append (a b : List Nat) (ha : a.length % 3 = 0) :
    encodeChunks (a ++ b) = encodeChunks a ++ encodeChunks b := by
  induction a using encodeChunks.induct with
  | case1 x y z rest ih =>
    have hrest : rest.length % 3 = 0 := by
      simp only [List.length_cons] at ha
      omega
    rw [List.cons_append, List.cons_append, List.cons_append, encodeChunks, encodeChunks,
      ih hrest, List.append_assoc]
  | case2 x y => simp at ha
  | case3 x => simp at ha
  | case4 => simp [encodeChunks]

/-- C18. Encoding distributes over concatenation at group boundaries: when
`len a % 3 = 0`, `encodeBase64 (a ++ b) = encodeBase64 a ++ encodeBase64 b`. -/
theorem C18_encode_append (a b : List Nat) (ha : a.length % 3 = 0) :
    encodeBase64 (a ++ b) = encodeBase64 a ++ encodeBase64 b := by
  rw [encodeBase64_eq_chunks, encodeBase64_eq_chunks, encodeBase64_eq_chunks,
    encodeChunks_append a b ha]

/-- Witness of C18: a 3-byte group followed by a 1-byte tail. -/
theorem C18_encode_append_witness :
    [0x4D, 0x61, 0x6E].length % 3 = 0 ∧
      encodeBase64 ([0x4D, 0x61, 0x6E] ++ [0x4D]) =
        encodeBase64 [0x4D, 0x61, 0x6E] ++ encodeBase64 [0x4D] :=
  ⟨by decide, C18_encode_append _ _ (by decide)⟩

/-! ## Groups of four symbols -/

theorem or_shift_four (v0 v1 v2 v3 : Nat) (h1 : v1 < 64) (h2 : v2 < 64) (h3 : v3 < 64) :
    (v0 <<< 18) ||| (v1 <<< 12) ||| (v2 <<< 6) ||| v3 =
      ((v0 * 64 + v1) * 64 + v2) * 64 + v3 := by
  have s0 : v0 <<< 18 = 2 ^ 18 * v0 := by rw [Nat.shiftLeft_eq, Nat.mul_comm]
  have s1 : v1 <<< 12 = v1 * 4096 := by rw [Nat.shiftLeft_eq]
  have s2 : v2 <<< 6 = v2 * 64 := by rw [Nat.shiftLeft_eq]
  have e1 : 2 ^ 18 * v0 ||| v1 * 4096 = 2 ^ 12 * (v0 * 64 + v1) := by
    rw [← Nat.mul_add_lt_is_or (show v1 * 4096 < 2 ^ 18 by omega) v0]
    omega
  have e2 : 2 ^ 12 * (v0 * 64 + v1) ||| v2 * 64 = 2 ^ 6 * ((v0 * 64 + v1) * 64 + v2) := by
    rw [← Nat.mul_add_lt_is_or (show v2 * 64 < 2 ^ 12 by omega) (v0 * 64 + v1)]
    omega
  have e3 : 2 ^ 6 * ((v0 * 64 + v1) * 64 + v2) ||| v3 =
      ((v0 * 64 + v1) * 64 + v2) * 64 + v3 := by
    rw [← Nat.mul_add_lt_is_or (show v3 < 2 ^ 6 by omega) ((v0 * 64 + v1) * 64 + v2)]
    omega
  rw [s0, s1, s2, e1, e2, e3]

theorem flushWord_eq (c0 c1 c2 c3 : Char) (_h0 : c0 ∈ BASE64_CHARS) (h1 : c1 ∈ BASE64_CHARS)
    (h2 : c2 ∈ BASE64_CHARS) (h3 : c3 ∈ BASE64_CHARS) :
    flushWord c0 c1 c2 c3 =
      ((symbolValue c0 * 64 + symbolValue c1) * 64 + symbolValue c2) * 64 + symbolValue c3 :=
  or_shift_four _ _ _ _ (symbolValue_lt c1 h1) (symbolValue_lt c2 h2) (symbolValue_lt c3 h3)

theorem flushWord_lt (c0 c1 c2 c3 : Char) (h0 : c0 ∈ BASE64_CHARS) (h1 : c1 ∈ BASE64_CHARS)
    (h2 : c2 ∈ BASE64_CHARS) (h3 : c3 ∈ BASE64_CHARS) : flushWord c0 c1 c2 c3 < 2 ^ 24 := by
  have b0 := symbolValue_lt c0 h0
  have b1 := symbolValue_lt c1 h1
  have b2 := symbolValue_lt c2 h2
  have b3 := symbolValue_lt c3 h3
  rw [flushWord_eq c0 c1 c2 c3 h0 h1 h2 h3]
  omega

theorem decodeLoop_four (c0 c1 c2 c3 : Char) (h0 : c0 ∈ BASE64_CHARS)
    (h1 : c1 ∈ BASE64_CHARS) (h2 : c2 ∈ BASE64_CHARS) (h3 : c3 ∈ BASE64_CHARS)
    (rest : List Char) (d : List Nat) :
    decodeLoop (c0 :: c1 :: c2 :: c3 :: rest) ⟨d, 0, 0⟩ =
      decodeLoop rest ⟨d ++ flushBytes (flushWord c0 c1 c2 c3), 0, 0⟩ := by
  rw [decodeLoop_valid c0 _ _ _ (ne_pad_of_mem c0 h0) (find_of_mem c0 h0),
    decodeLoop_valid c1 _ _ _ (ne_pad_of_mem c1 h1) (find_of_mem c1 h1),
    decodeLoop_valid c2 _ _ _ (ne_pad_of_mem c2 h2) (find_of_mem c2 h2),
    decodeLoop_valid c3 _ _ _ (ne_pad_of_mem c3 h3) (find_of_mem c3 h3)]
  simp only [stepValue, Nat.zero_add, Nat.reduceAdd, Nat.reduceEqDiff, if_false, if_true]
  rw [push6_four _ _ _ _ (symbolValue_lt c0 h0) (symbolValue_lt c1 h1) (symbolValue_lt c2 h2)
    (symbolValue_lt c3 h3), flushWord_eq c0 c1 c2 c3 h0 h1 h2 h3]

theorem stepValue_prepend (d : List Nat) (st : DecodeState) (v : Nat) :
    stepValue (prependDecoded d st) v = prependDecoded d (stepValue st v) := by
  unfold stepValue prependDecoded
  split_ifs <;> simp

theorem decodeLoop_prepend (d : List Nat) (text : List Char) :
    ∀ st : DecodeState,
      decodeLoop text (prependDecoded d st) = (decodeLoop text st).map (prependDecoded d) := by
  induction text with
  | nil => intro st; rfl
  | cons c rest ih =>
    intro st
    by_cases hc : c = '='
    · subst hc
      rw [decodeLoop_pad, decodeLoop_pad]; rfl
    · cases hf : find c with
      | none => rw [decodeLoop_invalid c _ _ hc hf, decodeLoop_invalid c _ _ hc hf]; rfl
      | some v =>
        rw [decodeLoop_valid c _ _ v hc hf, decodeLoop_valid c _ _ v hc hf,
          stepValue_prepend, ih]

theorem flushTail_prepend (d : List Nat) (st : DecodeState) :
    flushTail (prependDecoded d st) = d ++ flushTail st := by
  unfold flushTail prependDecoded
  simp only
  split_ifs <;> simp

theorem decodeBase64_four_append (c0 c1 c2 c3 : Char) (h0 : c0 ∈ BASE64_CHARS)
    (h1 : c1 ∈ BASE64_CHARS) (h2 : c2 ∈ BASE64_CHARS) (h3 : c3 ∈ BASE64_CHARS)
    (rest : List Char) :
    decodeBase64 (c0 :: c1 :: c2 :: c3 :: rest) =
      (decodeBase64 rest).map (fun out => flushBytes (flushWord c0 c1 c2 c3) ++ out) := by
  have hp := decodeLoop_prepend (flushBytes (flushWord c0 c1 c2 c3)) rest ⟨[], 0, 0⟩
  simp only [prependDecoded, List.append_nil] at hp
  unfold decodeBase64
  rw [decodeLoop_four c0 c1 c2 c3 h0 h1 h2 h3, List.nil_append, hp]
  cases decodeLoop rest ⟨[], 0, 0⟩ with
  | error e => rfl
  | ok st =>
    simp only [Except.map, flushTail_prepend]

/-- C15. Decoder flush: four alphabet symbols with values `v0 .. v3` decode to exactly
the three bytes `(w >> 16) & 0xFF`, `(w >> 8) & 0xFF`, `w & 0xFF` of
`w = v0<<18 | v1<<12 | v2<<6 | v3`; the loop leaves the accumulator and the symbol
count at 0, and a following text is decoded as if it stood alone. -/
theorem C15_decoder_flush (c0 c1 c2 c3 : Char) (h0 : c0 ∈ BASE64_CHARS)
    (h1 : c1 ∈ BASE64_CHARS) (h2 : c2 ∈ BASE64_CHARS) (h3 : c3 ∈ BASE64_CHARS) :
    decodeBase64 [c0, c1, c2, c3] =
      .ok [(flushWord c0 c1 c2 c3 >>> 16) &&& 0xFF, (flushWord c0 c1 c2 c3 >>> 8) &&& 0xFF,
        flushWord c0 c1 c2 c3 &&& 0xFF] ∧
    (∀ d : List Nat, ∃ out : List Nat,
      decodeLoop [c0, c1, c2, c3] { decoded := d, triple := 0, count := 0 } =
        .ok { decoded := out, triple := 0, count := 0 }) ∧
    (∀ rest : List Char, decodeBase64 ([c0, c1, c2, c3] ++ rest) =
      (decodeBase64 rest).map (fun out =>
        [(flushWord c0 c1 c2 c3 >>> 16) &&& 0xFF, (flushWord c0 c1 c2 c3 >>> 8) &&& 0xFF,
          flushWord c0 c1 c2 c3 &&& 0xFF] ++ out)) := by
  have hb : flushBytes (flushWord c0 c1 c2 c3) =
      [(flushWord c0 c1 c2 c3 >>> 16) &&& 0xFF, (flushWord c0 c1 c2 c3 >>> 8) &&& 0xFF,
        flushWord c0 c1 c2 c3 &&& 0xFF] := by
    simp only [flushBytes, and_0xFF, Nat.mod_mod]
  refine ⟨?_, ?_, ?_⟩
  · have h := decodeBase64_four_append c0 c1 c2 c3 h0 h1 h2 h3 []
    rw [h, ← hb]
    rfl
  · intro d
    exact ⟨d ++ flushBytes (flushWord c0 c1 c2 c3), by
      rw [decodeLoop_four c0 c1 c2 c3 h0 h1 h2 h3, decodeLoop_nil]⟩
  · intro rest
    rw [← hb]
    exact decodeBase64_four_append c0 c1 c2 c3 h0 h1 h2 h3 rest

/-- Witness of C15 on `"TWFu"`, which flushes to the bytes of `"Man"`. -/
theorem C15_decoder_flush_witness :
    'T' ∈ BASE64_CHARS ∧ 'W' ∈ BASE64_CHARS ∧ 'F' ∈ BASE64_CHARS ∧ 'u' ∈ BASE64_CHARS ∧
      decodeBase64 ['T', 'W', 'F', 'u'] =
        .ok [(flushWord 'T' 'W' 'F' 'u' >>> 16) &&& 0xFF,
          (flushWord 'T' 'W' 'F' 'u' >>> 8) &&& 0xFF, flushWord 'T' 'W' 'F' 'u' &&& 0xFF] :=
  ⟨by decide, by decide, by decide, by decide,
    (C15_decoder_flush 'T' 'W' 'F' 'u' (by decide) (by decide) (by decide) (by decide)).1⟩

/-! ## Canonical texts -/

theorem symbol_eq_of_sextet (t j : Nat) (c : Char) (hc : c ∈ BASE64_CHARS)
    (h : sextet t j = symbolValue c) : symbol t j = c := by
  have hlt : BASE64_CHARS.indexOf c < BASE64_CHARS.length := List.indexOf_lt_length.mpr hc
  have e : BASE64_CHARS.get ⟨BASE64_CHARS.indexOf c, hlt⟩ = c := List.indexOf_get hlt
  rw [← e]
  unfold symbol
  congr 1
  exact Fin.ext h

theorem group_flushWord (c0 c1 c2 c3 : Char) (h0 : c0 ∈ BASE64_CHARS)
    (h1 : c1 ∈ BASE64_CHARS) (h2 : c2 ∈ BASE64_CHARS) (h3 : c3 ∈ BASE64_CHARS) :
    group (flushWord c0 c1 c2 c3) 0 = [c0, c1, c2, c3] := by
  have b0 := symbolValue_lt c0 h0
  have b1 := symbolValue_lt c1 h1
  have b2 := symbolValue_lt c2 h2
  have b3 := symbolValue_lt c3 h3
  have hw := flushWord_eq c0 c1 c2 c3 h0 h1 h2 h3
  rw [group_zero,
    symbol_eq_of_sextet _ 0 c0 h0 (by rw [sextet_zero, hw]; omega),
    symbol_eq_of_sextet _ 1 c1 h1 (by rw [sextet_one, hw]; omega),
    symbol_eq_of_sextet _ 2 c2 h2 (by rw [sextet_two, hw]; omega),
    symbol_eq_of_sextet _ 3 c3 h3 (by rw [sextet_three, hw]; omega)]

theorem encodeChunks_flushBytes (w : Nat) (hw : w < 2 ^ 24) (out : List Nat) :
    encodeChunks (flushBytes w ++ out) = group w 0 ++ encodeChunks out := by
  rw [flushBytes_eq]
  simp only [List.cons_append, List.nil_append, encodeChunks]
  rw [pack3 _ _ _ (by omega) (by omega) (by omega)]
  congr 2
  omega

theorem canonical_roundtrip :
    ∀ (n : Nat) (y : List Char), y.length = 4 * n → (∀ c ∈ y, c ∈ BASE64_CHARS) →
      ∃ out : List Nat, decodeBase64 y = .ok out ∧ out.length = 3 * n ∧
        encodeChunks out = y := by
  intro n
  induction n with
  | zero =>
    intro y hlen _
    have hy : y = [] := List.length_eq_zero.mp (by omega)
    subst hy
    exact ⟨[], by decide, rfl, rfl⟩
  | succ n ih =>
    intro y hlen hy
    match y, hlen, hy with
    | c0 :: c1 :: c2 :: c3 :: rest, hlen, hy =>
      have h0 : c0 ∈ BASE64_CHARS := hy c0 (by simp)
      have h1 : c1 ∈ BASE64_CHARS := hy c1 (by simp)
      have h2 : c2 ∈ BASE64_CHARS := hy c2 (by simp)
      have h3 : c3 ∈ BASE64_CHARS := hy c3 (by simp)
      obtain ⟨out, d1, d2, d3⟩ := ih rest (by simp only [List.length_cons] at hlen; omega)
        (fun c hc => hy c (by simp [hc]))
      refine ⟨flushBytes (flushWord c0 c1 c2 c3) ++ out, ?_, ?_, ?_⟩
      · rw [decodeBase64_four_append c0 c1 c2 c3 h0 h1 h2 h3, d1]
        rfl
      · rw [List.length_append, flushBytes_length, d2]
        omega
      · rw [encodeChunks_flushBytes _ (flushWord_lt c0 c1 c2 c3 h0 h1 h2 h3),
          group_flushWord c0 c1 c2 c3 h0 h1 h2 h3, d3]
        rfl
    | [], hlen, _ => simp at hlen
    | [_], hlen, _ => simp at hlen; omega
    | [_, _], hlen, _ => simp at hlen; omega
    | [_, _, _], hlen, _ => simp at hlen; omega

/-- C17. Canonical reverse round trip: for every text `y` made of alphabet symbols only
(no `=`) whose length is a multiple of 4, `decodeBase64 y` succeeds with
`3 * len y / 4` bytes and encoding them gives `y` back. -/
theorem C17_canonical_reverse_roundtrip (y : List Char) (hy : ∀ c ∈ y, c ∈ BASE64_CHARS)
    (hlen : y.length % 4 = 0) :
    ∃ out : List Nat, decodeBase64 y = .ok out ∧ out.length = 3 * y.length / 4 ∧
      encodeBase64 out = y := by
  obtain ⟨out, h1, h2, h3⟩ := canonical_roundtrip (y.length / 4) y (by omega) hy
  refine ⟨out, h1, ?_, ?_⟩
  · rw [h2]; omega
  · rw [encodeBase64_eq_chunks, h3]

/-- Witness of C17 on the eight symbols `"TWFuTWFu"`. -/
theorem C17_canonical_reverse_roundtrip_witness :
    (∀ c ∈ "TWFuTWFu".toList, c ∈ BASE64_CHARS) ∧ "TWFuTWFu".toList.length % 4 = 0 ∧
      ∃ out : List Nat, decodeBase64 "TWFuTWFu".toList = .ok out ∧
        out.length = 3 * "TWFuTWFu".toList.length / 4 ∧
        encodeBase64 out = "TWFuTWFu".toList :=
  ⟨by decide, by decide,
    C17_canonical_reverse_roundtrip "TWFuTWFu".toList (by decide) (by decide)⟩

/-! ## Bit slicing of the encoder -/

theorem or_shift_bytes (a b c : Nat) (hb : b < 256) (hc : c < 256) :
    (a <<< 16) ||| (b <<< 8) ||| c = (a * 256 + b) * 256 + c := by
  have s0 : a <<< 16 = 2 ^ 16 * a := by rw [Nat.shiftLeft_eq, Nat.mul_comm]
  have s1 : b <<< 8 = b * 256 := by rw [Nat.shiftLeft_eq]
  have e1 : 2 ^ 16 * a ||| b * 256 = 2 ^ 8 * (a * 256 + b) := by
    rw [← Nat.mul_add_lt_is_or (show b * 256 < 2 ^ 16 by omega) a]
    omega
  have e2 : 2 ^ 8 * (a * 256 + b) ||| c = (a * 256 + b) * 256 + c := by
    rw [← Nat.mul_add_lt_is_or (show c < 2 ^ 8 by omega) (a * 256 + b)]
    omega
  rw [s0, s1, e1, e2]

theorem symbol_getElem (t j : Nat) : BASE64_CHARS[sextet t j]? = some (symbol t j) := by
  have h : sextet t j < BASE64_CHARS.length := by
    rw [BASE64_CHARS_length]; exact sextet_lt_64 t j
  rw [List.getElem?_eq_getElem h]
  rfl

theorem group_getElem_zero (t j : Nat) (hj : j < 4) (rest : List Char) :
    (group t 0 ++ rest)[j]? = some (symbol t j) := by
  rw [group_zero]
  interval_cases j <;> simp

theorem groupWord_cons3 (a b c : Nat) (rest : List Nat) (g : Nat) :
    groupWord (a :: b :: c :: rest) (g + 1) = groupWord rest g := by
  have e0 : 3 * (g + 1) = 3 * g + 1 + 1 + 1 := by omega
  have e1 : 3 * (g + 1) + 1 = 3 * g + 1 + 1 + 1 + 1 := by omega
  have e2 : 3 * (g + 1) + 2 = 3 * g + 2 + 1 + 1 + 1 := by omega
  have k0 : (a :: b :: c :: rest).getD (3 * (g + 1)) 0 = rest.getD (3 * g) 0 := by
    rw [e0]; simp only [List.getD_cons_succ]
  have k1 : (a :: b :: c :: rest).getD (3 * (g + 1) + 1) 0 = rest.getD (3 * g + 1) 0 := by
    rw [e1]; simp only [List.getD_cons_succ]
  have k2 : (a :: b :: c :: rest).getD (3 * (g + 1) + 2) 0 = rest.getD (3 * g + 2) 0 := by
    rw [e2]; simp only [List.getD_cons_succ]
  unfold groupWord
  rw [k0, k1, k2]

theorem encodeChunks_slice (data : List Nat) (hb : IsBytes data) :
    ∀ g j : Nat, 3 * g < data.length → j < 4 →
      (encodeChunks data)[4 * g + j]? ≠ some '=' →
      (encodeChunks data)[4 * g + j]? = BASE64_CHARS[sextet (groupWord data g) j]? := by
  induction data using encodeChunks.induct with
  | case1 a b c rest ih =>
    intro g j hg hj hnp
    have ha : a < 256 := hb a (by simp)
    have hb2 : b < 256 := hb b (by simp)
    have hc : c < 256 := hb c (by simp)
    cases g with
    | zero =>
      have hw : groupWord (a :: b :: c :: rest) 0 = (a * 256 + b) * 256 + c := by
        unfold groupWord
        simp only [Nat.mul_zero, Nat.zero_add, List.getD_cons_zero, List.getD_cons_succ]
        exact or_shift_bytes a b c hb2 hc
      rw [encodeChunks, pack3 a b c ha hb2 hc, hw, Nat.mul_zero, Nat.zero_add,
        group_getElem_zero _ j hj, symbol_getElem]
    | succ g =>
      have hidx : 4 * (g + 1) + j = (group (push8 (push8 (push8 0 a) b) c) 0).length +
          (4 * g + j) := by
        simp only [group, List.length_cons, List.length_nil]; omega
      rw [encodeChunks, hidx, List.getElem?_append_right (Nat.le_add_right _ _),
        Nat.add_sub_cancel_left] at hnp ⊢
      rw [groupWord_cons3]
      exact ih (fun x hx => hb x (by simp [hx])) g j
        (by simp only [List.length_cons] at hg; omega) hj hnp
  | case2 a b =>
    intro g j hg hj hnp
    have ha : a < 256 := hb a (by simp)
    have hb2 : b < 256 := hb b (by simp)
    have hg0 : g = 0 := by simp only [List.length_cons, List.length_nil] at hg; omega
    subst hg0
    have hw : groupWord [a, b] 0 = (a * 256 + b) * 256 := by
      unfold groupWord
      simp only [Nat.mul_zero, Nat.zero_add, List.getD_cons_zero, List.getD_cons_succ,
        List.getD_nil]
      rw [or_shift_bytes a b 0 hb2 (by omega)]
      omega
    rw [encodeChunks, pack2 a b ha hb2, group_one] at hnp ⊢
    rw [hw, symbol_getElem]
    interval_cases j
    · rfl
    · rfl
    · rfl
    · exact absurd rfl hnp
  | case3 a =>
    intro g j hg hj hnp
    have ha : a < 256 := hb a (by simp)
    have hg0 : g = 0 := by simp only [List.length_cons, List.length_nil] at hg; omega
    subst hg0
    have hw : groupWord [a] 0 = a * 65536 := by
      unfold groupWord
      simp only [Nat.mul_zero, Nat.zero_add, List.getD_cons_zero, List.getD_cons_succ,
        List.getD_nil]
      rw [or_shift_bytes a 0 0 (by omega) (by omega)]
      omega
    rw [encodeChunks, pack1 a ha, group_two] at hnp ⊢
    rw [hw, symbol_getElem]
    interval_cases j
    · rfl
    · rfl
    · exact absurd rfl hnp
    · exact absurd rfl hnp
  | case4 =>
    intro g j hg
    simp at hg

/-- C14. Encoder bit slicing: for every byte sequence `b`, every group index
`g < ceil (len b / 3)` and every `j` in `0..3`, when the character at position
`4 * g + j` of `encodeBase64 b` is not padding it is the alphabet symbol at index
`(acc >> (18 - 6 * j)) & 0x3F`, where `acc` packs `b[3g]`, `b[3g+1]`, `b[3g+2]`
most-significant first with the bytes past the end of `b` taken as 0. -/
theorem C14_encoder_bit_slicing (b : List Nat) (hb : IsBytes b) (g j : Nat)
    (hg : g < ⌈(b.length : ℚ) / 3⌉₊) (hj : j < 4)
    (hnp : (encodeBase64 b)[4 * g + j]? ≠ some '=') :
    (encodeBase64 b)[4 * g + j]? =
      BASE64_CHARS[(groupWord b g >>> (18 - 6 * j)) &&& 0x3F]? := by
  rw [ceil_div_three] at hg
  rw [encodeBase64_eq_chunks] at hnp ⊢
  exact encodeChunks_slice b hb g j (by omega) hj hnp

/-- Witness of C14: the second character of the second group of `encodeBase64 "ManM"`,
a group with two missing bytes. -/
theorem C14_encoder_bit_slicing_witness :
    IsBytes [0x4D, 0x61, 0x6E, 0x4D] ∧
      (encodeBase64 [0x4D, 0x61, 0x6E, 0x4D])[4 * 1 + 1]? =
        BASE64_CHARS[(groupWord [0x4D, 0x61, 0x6E, 0x4D] 1 >>> (18 - 6 * 1)) &&& 0x3F]? :=
  ⟨by decide, C14_encoder_bit_slicing [0x4D, 0x61, 0x6E, 0x4D] (by decide) 1 1
    (by rw [ceil_div_three]; decide) (by decide) (by decide)⟩

/-! ## Text followed by a newline -/

theorem decodeBase64_encodeBase64 (b : List Nat) (hb : IsBytes b) :
    decodeBase64 (encodeBase64 b) = .ok b := by
  obtain ⟨st, h1, h2⟩ := roundtrip_chunks b hb []
  rw [encodeBase64_eq_chunks]
  unfold decodeBase64
  rw [h1]
  simp only [h2, List.nil_append]

theorem newline_not_mem : '\n' ∉ BASE64_CHARS := by decide

theorem decode_newline_padded (b : List Nat) (hb : IsBytes b) (hlen : b.length % 3 ≠ 0) :
    decodeBase64 (encodeBase64 b ++ ['\n']) = .ok b := by
  obtain ⟨body, h1, h2⟩ := encodeChunks_shape b
  have hbody : '=' ∉ body := fun h => pad_not_mem (h2 _ h)
  have hk : ∃ k, padCount b.length = k + 1 := by
    unfold padCount
    split_ifs with h0 h1
    · exact absurd h0 hlen
    · exact ⟨1, rfl⟩
    · exact ⟨0, rfl⟩
  obtain ⟨k, hk⟩ := hk
  have henc : encodeBase64 b = body ++ '=' :: List.replicate k '=' := by
    rw [encodeBase64_eq_chunks, h1, hk, List.replicate_succ]
  have hdec := decodeBase64_encodeBase64 b hb
  rw [henc, decodeBase64_stop_at_pad body _ hbody] at hdec
  rw [henc, List.append_assoc, List.cons_append, decodeBase64_stop_at_pad body _ hbody, hdec]

theorem decode_newline_unpadded (b : List Nat) (hlen : b.length % 3 = 0) :
    decodeBase64 (encodeBase64 b ++ ['\n']) = .error .invalidCharacter := by
  obtain ⟨body, h1, h2⟩ := encodeChunks_shape b
  have hbody : '=' ∉ body := fun h => pad_not_mem (h2 _ h)
  have hp : padCount b.length = 0 := by simp [padCount, hlen]
  have henc : encodeBase64 b = body := by
    rw [encodeBase64_eq_chunks, h1, hp]
    simp
  have hno : '=' ∉ body ++ ['\n'] := by
    intro h
    rcases List.mem_append.mp h with h | h
    · exact hbody h
    · simp at h
  rw [henc, decodeBase64_error_iff, symbolsBeforePad_of_not_mem _ hno]
  exact ⟨'\n', by simp, newline_not_mem⟩

/-- C19. Trailing newline after encoded text: when `len b % 3 ≠ 0`,
`decodeBase64 (encodeBase64 b ++ "\n")` returns `b`; when `b` is non-empty and
`len b % 3 = 0` it fails with the invalid-character error. -/
theorem C19_trailing_newline (b : List Nat) (hb : IsBytes b) :
    (b.length % 3 ≠ 0 → decodeBase64 (encodeBase64 b ++ "\n".toList) = .ok b) ∧
    (b ≠ [] → b.length % 3 = 0 →
      decodeBase64 (encodeBase64 b ++ "\n".toList) = .error .invalidCharacter) :=
  ⟨fun hlen => decode_newline_padded b hb hlen, fun _ hlen => decode_newline_unpadded b hlen⟩

/-- Witness of C19: `"TQ==\n"` decodes to `[0x4D]`, `"TWFu\n"` is rejected. -/
theorem C19_trailing_newline_witness :
    (IsBytes [0x4D] ∧ decodeBase64 (encodeBase64 [0x4D] ++ "\n".toList) = .ok [0x4D]) ∧
    (IsBytes [0x4D, 0x61, 0x6E] ∧
      decodeBase64 (encodeBase64 [0x4D, 0x61, 0x6E] ++ "\n".toList) =
        .error .invalidCharacter) :=
  ⟨⟨by decide, (C19_trailing_newline [0x4D] (by decide)).1 (by decide)⟩,
    ⟨by decide, (C19_trailing_newline [0x4D, 0x61, 0x6E] (by decide)).2 (by decide)
      (by decide)⟩⟩

/-! ## Exit status of the tool -/

theorem main_args (env : Env) (prog op input : List Char) (extra : List (List Char)) :
    main env (prog :: op :: input :: extra) =
      if op = "encode".toList then
        match env.readBinaryFile input with
        | none => 1
        | some _ => 0
      else if op = "decode".toList then
        match inputText env input with
        | none => 1
        | some text =>
          match decodeBase64 text with
          | .error _ => 1
          | .ok decodedData =>
            if env.writeBinaryFile "output.bin".toList decodedData then 0 else 1
      else 1 := by
  have h : ¬ (prog :: op :: input :: extra).length < 3 := by
    simp only [List.length_cons]; omega
  unfold main
  rw [if_neg h]
  rfl

/-- C13, as stated, fails: an invocation with three arguments after the program name has
a wrong argument count, yet it is not rejected (`argc < 3` only rejects too few): the
tool encodes the file named by the second argument and returns 0. -/
theorem C13_exit_status_counterexample :
    ["base64".toList, "encode".toList, "in.bin".toList, "extra".toList].length ≠ 3 ∧
      main sampleEnv ["base64".toList, "encode".toList, "in.bin".toList, "extra".toList] = 0 := by
  decide

/-- C13, amended. An invocation with fewer than two arguments returns status 1.
Arguments after the second are ignored: with an operation keyword, an input argument
and any further arguments, an operation keyword other than `encode` / `decode` returns
1; a decode whose input text contains an invalid symbol, that is one whose decoding
fails with the invalid-character error (a character outside the alphabet before the
first `=`), returns 1; an encode whose input file is read returns 0; a decode whose
text is decoded and whose output file is written returns 0. -/
theorem C13_exit_status (env : Env) :
    (∀ argv : List (List Char), argv.length < 3 → main env argv = 1) ∧
    (∀ (prog op input : List Char) (extra : List (List Char)),
      op ≠ "encode".toList → op ≠ "decode".toList →
      main env (prog :: op :: input :: extra) = 1) ∧
    (∀ (prog input text : List Char) (extra : List (List Char)),
      inputText env input = some text → decodeBase64 text = .error .invalidCharacter →
      main env (prog :: "decode".toList :: input :: extra) = 1) ∧
    (∀ (prog input text : List Char) (extra : List (List Char)),
      inputText env input = some text →
      (∃ c ∈ text.takeWhile (fun c => c != '='), c ∉ BASE64_CHARS) →
      main env (prog :: "decode".toList :: input :: extra) = 1) ∧
    (∀ (prog input : List Char) (extra : List (List Char)) (data : List Nat),
      env.readBinaryFile input = some data →
      main env (prog :: "encode".toList :: input :: extra) = 0) ∧
    (∀ (prog input text : List Char) (extra : List (List Char)) (out : List Nat),
      inputText env input = some text → decodeBase64 text = .ok out →
      env.writeBinaryFile "output.bin".toList out = true →
      main env (prog :: "decode".toList :: input :: extra) = 0) := by
  have hde : "decode".toList ≠ "encode".toList := by decide
  refine ⟨?_, ?_, ?_, ?_, ?_, ?_⟩
  · intro argv h
    unfold main
    rw [if_pos h]
  · intro prog op input extra h1 h2
    rw [main_args, if_neg h1, if_neg h2]
  · intro prog input text extra ht herr
    rw [main_args, if_neg hde, if_pos rfl, ht]
    simp only [herr]
  · intro prog input text extra ht hbad
    have herr := (decodeBase64_error_iff text).mpr hbad
    rw [main_args, if_neg hde, if_pos rfl, ht]
    simp only [herr]
  · intro prog input extra data hr
    rw [main_args, if_pos rfl, hr]
  · intro prog input text extra out ht hd hw
    rw [main_args, if_neg hde, if_pos rfl, ht]
    simp only [hd, hw, if_true]

/-- Witness of C13 (amended): with one extra argument, a decode of `"A!=="` returns 1 and
a decode of `"TQ=="` returns 0. -/
theorem C13_exit_status_witness :
    main sampleEnv ["base64".toList, "decode".toList, "A!==".toList, "extra".toList] = 1 ∧
    main sampleEnv ["base64".toList, "decode".toList, "TQ==".toList, "extra".toList] = 0 :=
  ⟨(C13_exit_status sampleEnv).2.2.1 _ _ "A!==".toList _ rfl (by decide),
    (C13_exit_status sampleEnv).2.2.2.2.2 _ _ "TQ==".toList _ [0x4D] rfl (by decide) rfl⟩

/-! ## Range of the accumulator -/

theorem fitsAccumulator_of_lt (v : Nat) (h : v < 2 ^ 24) : FitsAccumulator v :=
  ⟨h, Nat.mod_eq_of_lt (by omega)⟩

theorem shl8_or (t x : Nat) (hx : x < 256) : (t <<< 8) ||| x = t * 256 + x := by
  have h1 : t <<< 8 = 2 ^ 8 * t := by rw [Nat.shiftLeft_eq, Nat.mul_comm]
  rw [h1, ← Nat.mul_add_lt_is_or (show x < 2 ^ 8 by omega) t]
  omega

theorem packStep_triple_lt (data : List Nat) (hb : IsBytes data) (st : PackState) (m : Nat)
    (hm : m ≤ 2 ^ 16) (h : st.triple < m) : (packStep data st).triple < 256 * m := by
  obtain ⟨t, i, p⟩ := st
  simp only at h
  by_cases hi : i < data.length
  · have hx : data[i] < 256 := hb _ (List.getElem_mem hi)
    rw [packStep_lt data t i p hi]
    simp only
    rw [push8_eq t _ (by omega) hx]
    omega
  · rw [packStep_ge data t i p (by omega)]
    simp only
    rw [shift8_eq t (by omega)]
    omega

theorem packStep_iterate_lt (data : List Nat) (hb : IsBytes data) (i k : Nat) (hk : k < 3) :
    ((packStep data)^[k] { triple := 0, i := i, padding := 0 }).triple < 2 ^ 16 := by
  have h0 : ({ triple := 0, i := i, padding := 0 } : PackState).triple < 1 := Nat.zero_lt_one
  have h1 := packStep_triple_lt data hb _ 1 (by omega) h0
  have h2 := packStep_triple_lt data hb
    (packStep data { triple := 0, i := i, padding := 0 }) 256 (by omega) (by omega)
  interval_cases k
  · exact Nat.lt_of_lt_of_le h0 (by omega)
  · exact Nat.lt_of_lt_of_le h1 (by omega)
  · exact Nat.lt_of_lt_of_le h2 (by omega)

theorem find_lt (c : Char) (v : Nat) (h : find c = some v) : v < 64 := by
  by_cases hm : c ∈ BASE64_CHARS
  · rw [find_of_mem c hm] at h
    cases h
    exact symbolValue_lt c hm
  · rw [find_eq_none c hm] at h
    cases h

theorem stepValue_bound (st : DecodeState) (v : Nat) (hv : v < 64) (h : DecodeBound st) :
    DecodeBound (stepValue st v) := by
  obtain ⟨d, t, c⟩ := st
  unfold DecodeBound at h
  simp only at h
  rcases h with ⟨hc, ht⟩ | ⟨hc, ht⟩ | ⟨hc, ht⟩ | ⟨hc, ht⟩
  · subst hc
    have hs : stepValue ⟨d, t, 0⟩ v = ⟨d, t * 64 + v, 1⟩ := by
      simp only [stepValue, Nat.zero_add, Nat.reduceEqDiff, if_false,
        push6_eq t v (by omega) hv]
    rw [hs]
    exact Or.inr (Or.inl ⟨rfl, show t * 64 + v < 2 ^ 6 by omega⟩)
  · subst hc
    have hs : stepValue ⟨d, t, 1⟩ v = ⟨d, t * 64 + v, 2⟩ := by
      simp only [stepValue, Nat.reduceAdd, Nat.reduceEqDiff, if_false,
        push6_eq t v (by omega) hv]
    rw [hs]
    exact Or.inr (Or.inr (Or.inl ⟨rfl, show t * 64 + v < 2 ^ 12 by omega⟩))
  · subst hc
    have hs : stepValue ⟨d, t, 2⟩ v = ⟨d, t * 64 + v, 3⟩ := by
      simp only [stepValue, Nat.reduceAdd, Nat.reduceEqDiff, if_false,
        push6_eq t v (by omega) hv]
    rw [hs]
    exact Or.inr (Or.inr (Or.inr ⟨rfl, show t * 64 + v < 2 ^ 18 by omega⟩))
  · subst hc
    have hs : stepValue ⟨d, t, 3⟩ v = ⟨d ++ flushBytes (push6 t v), 0, 0⟩ := by
      simp only [stepValue, Nat.reduceAdd, if_true]
    rw [hs]
    exact Or.inl ⟨rfl, rfl⟩

theorem decodeLoop_bound (p : List Char) :
    ∀ st st2 : DecodeState, DecodeBound st → decodeLoop p st = .ok st2 → DecodeBound st2 := by
  induction p with
  | nil =>
    intro st st2 hb h
    rw [decodeLoop_nil] at h
    cases h
    exact hb
  | cons c rest ih =>
    intro st st2 hb h
    by_cases hc : c = '='
    · subst hc
      rw [decodeLoop_pad] at h
      cases h
      exact hb
    · cases hf : find c with
      | none =>
        rw [decodeLoop_invalid c rest st hc hf] at h
        cases h
      | some v =>
        rw [decodeLoop_valid c rest st v hc hf] at h
        exact ih _ _ (stepValue_bound st v (find_lt c v hf) hb) h

/-- C16. No overflow. In the encoder, at each of the three iterations of the byte-reading
loop (from `triple = 0` at any read index), the value after `triple <<= 8` and the value
after `triple |= x` for a byte `x` are below `2 ^ 24`. In the decoder, at every state
the loop can reach, the accumulator, the value `(triple << 6) | index` for an index
below 64, and the tail value `triple << (4 - count) * 6` are below `2 ^ 24`. Each of
these values is therefore unchanged by the reduction modulo `2 ^ 32`. -/
theorem C16_no_overflow (data : List Nat) (hb : IsBytes data) :
    (∀ i k : Nat, k < 3 →
      FitsAccumulator
        (((packStep data)^[k] { triple := 0, i := i, padding := 0 }).triple <<< 8) ∧
      ∀ x : Nat, x < 256 →
        FitsAccumulator
          ((((packStep data)^[k] { triple := 0, i := i, padding := 0 }).triple <<< 8) |||
            x)) ∧
    (∀ (text : List Char) (st : DecodeState),
      decodeLoop text { decoded := [], triple := 0, count := 0 } = .ok st →
        st.count < 4 ∧ FitsAccumulator st.triple ∧
        (∀ index : Nat, index < 64 → FitsAccumulator ((st.triple <<< 6) ||| index)) ∧
        FitsAccumulator (st.triple <<< ((4 - st.count) * 6))) := by
  constructor
  · intro i k hk
    have ht := packStep_iterate_lt data hb i k hk
    generalize ((packStep data)^[k] { triple := 0, i := i, padding := 0 }).triple = t at ht
    constructor
    · apply fitsAccumulator_of_lt
      rw [Nat.shiftLeft_eq]
      omega
    · intro x hx
      apply fitsAccumulator_of_lt
      rw [shl8_or t x hx]
      omega
  · intro text st h
    have hbound := decodeLoop_bound text _ st (Or.inl ⟨rfl, rfl⟩) h
    obtain ⟨d, t, c⟩ := st
    unfold DecodeBound at hbound
    simp only at hbound ⊢
    rcases hbound with ⟨hc, ht⟩ | ⟨hc, ht⟩ | ⟨hc, ht⟩ | ⟨hc, ht⟩
    all_goals
      subst hc
      refine ⟨by omega, fitsAccumulator_of_lt _ (by omega), ?_, ?_⟩
      · intro index hi
        apply fitsAccumulator_of_lt
        rw [shl6_or t index hi]
        omega
      · apply fitsAccumulator_of_lt
        rw [Nat.shiftLeft_eq]
        omega

/-- Witness of C16 on three bytes `0xFF`, the largest accumulator the encoder builds. -/
theorem C16_no_overflow_witness :
    IsBytes [0xFF, 0xFF, 0xFF] ∧
      FitsAccumulator
        ((((packStep [0xFF, 0xFF, 0xFF])^[2] { triple := 0, i := 0, padding := 0 }).triple
          <<< 8) ||| 0xFF) :=
  ⟨by decide, ((C16_no_overflow [0xFF, 0xFF, 0xFF] (by decide)).1 0 2 (by decide)).2 0xFF
    (by decide)⟩

end Base64

namespace XOR

/-! ## The XOR cipher -/

theorem xor_byte_cancel (c k : Nat) (hc : c < 256) (hk : k < 256) :
    (((c ^^^ k) % 256) ^^^ k) % 256 = c := by
  have h1 : c ^^^ k < 2 ^ 8 := Nat.xor_lt_two_pow (by omega) (by omega)
  rw [Nat.mod_eq_of_lt (show c ^^^ k < 256 by omega), Nat.xor_cancel_right,
    Nat.mod_eq_of_lt hc]

theorem xorLoop_cons (key : List Nat) (h : 0 < key.length) (c : Nat) (rest : List Nat)
    (i : Nat) (result : List Nat) :
    xorLoop key (c :: rest) i result =
      xorLoop key rest (i + 1)
        (result ++ [(c ^^^ key.get ⟨i % key.length, Nat.mod_lt i h⟩) % 256]) := by
  simp [xorLoop, h]

theorem xorLoop_empty_key (c : Nat) (rest : List Nat) (i : Nat) (result : List Nat) :
    xorLoop [] (c :: rest) i result = none := by
  simp [xorLoop]

theorem xorLoop_twice (key : List Nat) (h : 0 < key.length) (hkey : IsBytes key)
    (data : List Nat) (hdata : IsBytes data) :
    ∀ (i : Nat) (r1 : List Nat), ∃ enc : List Nat,
      xorLoop key data i r1 = some (r1 ++ enc) ∧
      ∀ r2 : List Nat, xorLoop key enc i r2 = some (r2 ++ data) := by
  induction data with
  | nil =>
    intro i r1
    exact ⟨[], by simp [xorLoop], fun r2 => by simp [xorLoop]⟩
  | cons c rest ih =>
    intro i r1
    have hc : c < 256 := hdata c (by simp)
    have hk : key.get ⟨i % key.length, Nat.mod_lt i h⟩ < 256 := hkey _ (List.get_mem _ _ _)
    obtain ⟨enc, h1, h2⟩ := ih (fun x hx => hdata x (by simp [hx])) (i + 1)
      (r1 ++ [(c ^^^ key.get ⟨i % key.length, Nat.mod_lt i h⟩) % 256])
    refine ⟨(c ^^^ key.get ⟨i % key.length, Nat.mod_lt i h⟩) % 256 :: enc, ?_, ?_⟩
    · rw [xorLoop_cons key h, h1]
      simp
    · intro r2
      rw [xorLoop_cons key h, h2, xor_byte_cancel c _ hc hk]
      simp

/-- C12, as stated, fails: with the empty key and the one-byte data `"a"` the key index
`i % key.size()` is a remainder by zero, and no string is returned. -/
theorem C12_xor_empty_key_counterexample :
    xor_encrypt [0x61] [] = none ∧
      ¬ ((xor_encrypt [0x61] []).bind (fun enc => xor_encrypt enc []) = some [0x61]) := by
  decide

/-- C12, amended. XOR is its own inverse for a non-empty key: for every data string and
every non-empty key, `xor_encrypt (xor_encrypt data key) key` returns `data`. -/
theorem C12_xor_involution (data key : List Nat) (hdata : IsBytes data)
    (hkey : IsBytes key) (hne : key ≠ []) :
    (xor_encrypt data key).bind (fun enc => xor_encrypt enc key) = some data := by
  have h : 0 < key.length := List.length_pos.mpr hne
  obtain ⟨enc, h1, h2⟩ := xorLoop_twice key h hkey data hdata 0 []
  unfold xor_encrypt
  rw [h1]
  simpa using h2 []

/-- Witness of C12 (amended) with the key of the tool, `KEY`. -/
theorem C12_xor_involution_witness :
    IsBytes [0x00, 0x61, 0xFF] ∧ IsBytes KEY ∧ KEY ≠ [] ∧
      (xor_encrypt [0x00, 0x61, 0xFF] KEY).bind (fun enc => xor_encrypt enc KEY) =
        some [0x00, 0x61, 0xFF] :=
  ⟨by decide, by decide, by decide, C12_xor_involution _ _ (by decide) (by decide) (by decide)⟩

end XOR
